import Mathlib

/-!
Verification of the `meg-frac` nested-fraction library.

This file gives a shallow embedding of the library's source
(`src/Arith.ts`, `src/Frac.ts`, `src/Parser.ts`) and proves / refutes the
frozen claims about it.

Modelling conventions, used throughout:

* JavaScript numbers that are stored inside a fraction are always integers
  (every store goes through a setter that floors finite values and rejects
  unsafe ones, or through `Arith.ratio`, which divides two stored integers
  by their gcd).  A stored number is modelled as `Option ℤ`, where `none`
  models `NaN` (which `Arith.ratio` produces when both of its arguments are
  zero, via `0 / 0`).  `Infinity` can only arise from `x / 0` with `x ≠ 0`;
  at every division site in this code the divisor is zero only when the
  dividend is zero (it is a gcd of the dividend, or an lcm cofactor), so
  `Infinity` is unreachable and is collapsed into `none` as well; `NaN` and
  `Infinity` are observably identical at every reachable use (both are
  non-finite, falsy-vs-truthy is never consulted on them, and both fail
  `Number.isSafeInteger`).
* JavaScript `/` is floating-point division.  At every division site in
  this code the division is exact (the divisor divides the dividend), so it
  is modelled as exact integer division; the unreachable inexact branch
  truncates.
* Floating-point rounding of sums/products beyond 2^53 is not modelled:
  arithmetic is exact and the `Number.isSafeInteger` guard is applied to
  the exact value.  For integer values the guard agrees with the real one
  whenever the exact value is in the safe range, and any exact value
  outside the safe range rounds to a float outside it, so the guard's
  verdict is faithful for integer-valued computations.
* Numbers crossing the public API boundary (constructor arguments, parsed
  literals) may be non-integer or non-finite; they are modelled by `JsNum`.
* The unbounded recursion of `reduce$` / `mul$` / `div$$` is modelled with
  an explicit fuel parameter; running out of fuel is the distinguished
  outcome `Err.fuel`, and termination of the original recursion is the
  statement that some fuel avoids it.
-/

namespace MF

/-- Error outcomes of the library (JS exceptions), plus the fuel marker for
the modelled recursion. -/
inductive Err where
  | divByZero
  | numOverflow
  | denOverflow
  | badType
  | syn (msg : String)
  | fuel
deriving DecidableEq, Repr

/-- An exact rational written as a quotient of integers (not necessarily in
lowest terms).  Mathlib's `ℚ` is kept for specification-level statements;
this explicit pair is used in the executable model so that every definition
evaluates inside the kernel. -/
structure QJ where
  n : ℤ
  d : ℤ
deriving DecidableEq, Repr

/-- Embed an integer. -/
def QJ.ofInt (z : ℤ) : QJ := ⟨z, 1⟩

/-- `Math.floor` of an exact rational (a `QJ` with zero denominator is
never built). -/
def QJ.floor (q : QJ) : ℤ :=
  if q.d < 0 then Int.fdiv (-q.n) (-q.d) else Int.fdiv q.n q.d

/-- Negation. -/
def QJ.neg (q : QJ) : QJ := ⟨-q.n, q.d⟩

/-- Multiplication by a power of ten (for the exponent part of numeric
literals). -/
def QJ.mulPow10 (q : QJ) (e : ℤ) : QJ :=
  if e < 0 then ⟨q.n, q.d * 10 ^ e.natAbs⟩ else ⟨q.n * 10 ^ e.natAbs, q.d⟩

/-- Exact equality of two quotients by cross-multiplication (coincides with
rational equality whenever both denominators are nonzero, which holds at
every use site). -/
def QJ.eq (a b : QJ) : Bool := a.n * b.d == b.n * a.d

/-- The rational value of a quotient (specification level). -/
def QJ.toRat (q : QJ) : ℚ := (q.n : ℚ) / (q.d : ℚ)

/-- A JavaScript number at the API boundary: `NaN`, `±Infinity`, or a finite
value (modelled exactly as a rational). -/
inductive JsNum where
  | nan
  | inf (pos : Bool)
  | fin (q : QJ)
deriving DecidableEq, Repr

/-- `Number.isSafeInteger` on an integer value. -/
def isSafeInt (z : ℤ) : Bool := z.natAbs ≤ 2 ^ 53 - 1

/-- A stored JavaScript number: an integer, or `none` for `NaN` (see the
header comment; `Infinity` is unreachable in stored positions and collapsed
into `none`). -/
abbrev JNum := Option ℤ

/-- Lift a stored number back to a boundary number. -/
def toJsNum : JNum → JsNum
  | none => .nan
  | some z => .fin (QJ.ofInt z)

/-- JavaScript truthiness of a stored number: `0` and `NaN` are falsy. -/
def jsTruthy : JNum → Bool
  | none => false
  | some z => z != 0

/-- Multiplication with `NaN` propagation. -/
def jsMulO : JNum → JNum → JNum
  | some a, some b => some (a * b)
  | _, _ => none

/-- Addition with `NaN` propagation. -/
def jsAddO : JNum → JNum → JNum
  | some a, some b => some (a + b)
  | _, _ => none

/-- Unary minus with `NaN` propagation. -/
def jsNegO : JNum → JNum
  | some a => some (-a)
  | none => none

/-- `Math.abs` with `NaN` propagation. -/
def jsAbsO : JNum → JNum
  | some a => some (a.natAbs : ℤ)
  | none => none

/-- `Math.sign` with `NaN` propagation. -/
def jsSignO : JNum → JNum
  | some a => some a.sign
  | none => none

/-- JavaScript `%` (truncating remainder); `x % 0` and `NaN % y` are `NaN`. -/
def jsModO : JNum → JNum → JNum
  | some a, some b => if b = 0 then none else some (a.tmod b)
  | _, _ => none

/-- JavaScript `/` as used in this code: every call site divides exactly
(the divisor divides the dividend) or has a zero dividend, so the quotient
is modelled as truncating integer division; `x / 0` is `none` (for the
reachable case `0 / 0 = NaN`; a nonzero dividend, which would give
`Infinity`, cannot arise — see the header comment). -/
def jsDivO : JNum → JNum → JNum
  | some a, some b => if b = 0 then none else some (a.tdiv b)
  | _, _ => none

/-- Exponentiation `x ** k` for a natural exponent; JS defines `x ** 0 = 1`
even for `NaN` bases. -/
def jsPowO (x : JNum) (k : ℕ) : JNum :=
  if k = 0 then some 1 else x.map (· ^ k)

/-- Absolute value of the truncating remainder. -/
theorem natAbs_tmod (x z : ℤ) : (x.tmod z).natAbs = x.natAbs % z.natAbs := by
  cases x <;> cases z <;> simp [Int.tmod] <;> norm_cast

theorem natAbs_tmod_lt (x : ℤ) {z : ℤ} (h : z ≠ 0) :
    (x.tmod z).natAbs < z.natAbs := by
  rw [natAbs_tmod]
  exact Nat.mod_lt _ (by omega)

/-- Termination measure for the JS gcd recursion. -/
def jsMeasure : JNum → ℕ
  | none => 0
  | some z => z.natAbs

namespace Arith

/-- One step of `Arith.gcd`, translated from
`b && (a %= b) ? this.gcd(b, a) : a || b`:
if `b` is truthy, `a` is replaced by `a % b`; if that is truthy recurse on
`(b, a % b)`, else the result is `a || b` evaluated after the assignment
(hence `b`, since `a` is falsy); if `b` is falsy, `a` is unchanged and the
result is `a || b`.  The recursion terminates because the remainder
strictly shrinks (`natAbs_tmod_lt`); to keep the definition
kernel-computable it is written with an explicit bound on the recursion
depth, which `gcd_unfold` below shows is never exhausted. -/
def gcdGo : ℕ → JNum → JNum → JNum
  | 0, _, _ => none
  | fuel + 1, a, b =>
    if jsTruthy b then
      let a' := jsModO a b
      if jsTruthy a' then gcdGo fuel b a' else b
    else
      if jsTruthy a then a else b

/-- `Arith.gcd`. -/
def gcd (a b : JNum) : JNum := gcdGo (jsMeasure b + 1) a b

/-- `Arith.lcm`: `b / this.gcd(a, b) * a`. -/
def lcm (a b : JNum) : JNum :=
  jsMulO (jsDivO b (gcd a b)) a

/-- `Arith.ratio`: `[a / gcd, b / gcd]` where `gcd = this.gcd(a, b)`. -/
def ratioPair (a b : JNum) : JNum × JNum :=
  let g := gcd a b
  (jsDivO a g, jsDivO b g)

end Arith

/-- The recursion-depth bound of `Arith.gcdGo` is irrelevant once it exceeds the
measure of the second argument. -/
theorem Arith.gcdGo_mono :
    ∀ (f1 f2 : ℕ) (a b : JNum), jsMeasure b < f1 → jsMeasure b < f2 →
      Arith.gcdGo f1 a b = Arith.gcdGo f2 a b := by
  intro f1
  induction f1 with
  | zero => omega
  | succ k ih =>
      intro f2 a b h1 h2
      obtain ⟨m, rfl⟩ : ∃ m, f2 = m + 1 := ⟨f2 - 1, by omega⟩
      simp only [Arith.gcdGo]
      by_cases hb : jsTruthy b
      · simp only [if_pos hb]
        by_cases ha' : jsTruthy (jsModO a b)
        · simp only [if_pos ha']
          rcases b with _ | z
          · simp [jsTruthy] at hb
          · rcases a with _ | x
            · simp [jsModO, jsTruthy] at ha'
            · have hz : z ≠ 0 := by simpa [jsTruthy] using hb
              have hlt : jsMeasure (jsModO (some x) (some z)) < jsMeasure (some z) := by
                simp only [jsModO, if_neg hz, jsMeasure]
                exact natAbs_tmod_lt x hz
              exact ih m (some z) _ (by simp only [jsMeasure] at *; omega)
                (by simp only [jsMeasure] at *; omega)
        · simp [if_neg ha']
      · simp [if_neg hb]

/-- `Arith.gcd` satisfies the original recursion of the source verbatim. -/
theorem gcd_unfold (a b : JNum) :
    Arith.gcd a b =
      if jsTruthy b then
        (if jsTruthy (jsModO a b) then Arith.gcd b (jsModO a b) else b)
      else
        if jsTruthy a then a else b := by
  show Arith.gcdGo (jsMeasure b + 1) a b = _
  simp only [Arith.gcdGo]
  by_cases hb : jsTruthy b
  · simp only [if_pos hb]
    by_cases ha' : jsTruthy (jsModO a b)
    · simp only [if_pos ha']
      rcases b with _ | z
      · simp [jsTruthy] at hb
      · rcases a with _ | x
        · simp [jsModO, jsTruthy] at ha'
        · have hz : z ≠ 0 := by simpa [jsTruthy] using hb
          apply Arith.gcdGo_mono
          · simp only [jsModO, if_neg hz, jsMeasure]
            exact natAbs_tmod_lt x hz
          · omega
    · simp [if_neg ha']
  · simp [if_neg hb]

/-- One slot of a fraction: a JavaScript number (`number`), or a nested
`Frac` object with its own two slots. -/
inductive Slot where
  | num (v : JNum)
  | sub (n d : Slot)
deriving DecidableEq, Repr

/-- A `Frac` object: a numerator slot and a denominator slot. -/
structure Frac where
  n : Slot
  d : Slot
deriving DecidableEq, Repr

/-- View a `Frac` as the slot holding it. -/
def Frac.toSlot (f : Frac) : Slot := .sub f.n f.d

/-- `typeof slot === "number"`. -/
def Slot.isNum : Slot → Bool
  | .num _ => true
  | .sub _ _ => false

/-- Read a slot as a number.  Reading a nested `Frac` where the code then
does arithmetic would trigger JS primitive coercion; every such read in this
code happens on the result of `reduce$`, which is always flat (proved below
as `reduceF_flat`), so the `sub` case is unreachable and modelled as `NaN`. -/
def slotNum : Slot → JNum
  | .num v => v
  | .sub _ _ => none

/-- The number branch of `Frac.#validateArgs`: floor a finite value, reject
a zero denominator, then require a safe integer. -/
def validateNumber (e : JsNum) (isNumerator : Bool) : Except Err ℤ :=
  match e with
  | .fin q =>
      let z : ℤ := q.floor
      if !isNumerator && z == 0 then .error .divByZero
      else if isSafeInt z then .ok z
      else .error (if isNumerator then .numOverflow else .denOverflow)
  | .nan => .error (if isNumerator then .numOverflow else .denOverflow)
  | .inf _ => .error (if isNumerator then .numOverflow else .denOverflow)

/-- A value passed to the `n`/`d` setters: a number or a `Frac` object. -/
inductive SetVal where
  | sNum (x : JsNum)
  | sFrac (f : Frac)
deriving DecidableEq, Repr

/-- The `n` / `d` setters: `Frac.#validateArgs(value, isNumerator, false)` —
numbers are floored and range-checked (denominator additionally rejects 0);
`Frac` instances are stored as-is without a deep copy. -/
def setSlot (isNumerator : Bool) (v : SetVal) : Except Err Slot :=
  match v with
  | .sNum x => (validateNumber x isNumerator).map (fun z => Slot.num (some z))
  | .sFrac f => .ok (.sub f.n f.d)

/-- Turn a slot into the value the code passes to a setter. -/
def slotToSet : Slot → SetVal
  | .num v => .sNum (toJsNum v)
  | .sub a b => .sFrac ⟨a, b⟩

/-- `Frac.#from(numerator, denominator)` with both arguments present:
`[frac.n, frac.d] = [numerator, denominator]` assigns through the setters,
numerator first. -/
def fromPair (nv dv : SetVal) : Except Err Frac := do
  let n ← setSlot true nv
  let d ← setSlot false dv
  .ok ⟨n, d⟩

/-- `Frac.#from(numerator)` with a number argument:
`[frac.n, frac.d] = [numerator, 1]`. -/
def fromNum (x : JNum) : Except Err Frac := do
  let n ← setSlot true (.sNum (toJsNum x))
  let d ← setSlot false (.sNum (.fin (QJ.ofInt 1)))
  .ok ⟨n, d⟩

/-- `Frac.#from` on the contents of a slot: a number is wrapped as `x / 1`
through the setters, a `Frac` object is returned as-is. -/
def fromSlot : Slot → Except Err Frac
  | .num v => fromNum v
  | .sub a b => .ok ⟨a, b⟩

/-- `Frac.inv$`: swap the two slots in place, with no validation. -/
def invF (f : Frac) : Frac := ⟨f.d, f.n⟩

/-- The cross-cancellation step of `mul$`: when both slots are numbers they
are divided by their gcd via `Arith.ratio`; otherwise they are left
untouched. -/
def crossCancel : Slot → Slot → Slot × Slot
  | .num x, .num y =>
      let r := Arith.ratioPair x y
      (.num r.1, .num r.2)
  | sn, sd => (sn, sd)

mutual

/-- `Frac.reduce$`.  Flat case: `s = gcd(n, d)`, `sign = Math.sign(d)`,
`this.n = n / Math.abs(s) * sign`, `this.d = Math.abs(d / s)` (both through
the validating setters, numerator first).  Nested case:
`Frac.#from(n).div$$(Frac.#from(d))`, whose two slots are then written back
into `this`. -/
def reduceF : ℕ → Frac → Except Err Frac
  | 0, _ => .error .fuel
  | fuel + 1, f =>
    match f.n, f.d with
    | .num nv, .num dv =>
        let s := Arith.gcd nv dv
        let sg := jsSignO dv
        do
          let n' ← validateNumber (toJsNum (jsMulO (jsDivO nv (jsAbsO s)) sg)) true
          let d' ← validateNumber (toJsNum (jsAbsO (jsDivO dv s))) false
          .ok ⟨.num (some n'), .num (some d')⟩
    | _, _ => do
        let a ← fromSlot f.n
        let b ← fromSlot f.d
        let (r, _) ← divDD fuel a b
        .ok ⟨r.n, r.d⟩

/-- `Frac.div$$`: `const result = this.mul$$(other.inv$())`, then
`other.inv$().reduce$()` (which can itself throw), then `return result`.
The returned pair is (result, final state of `other`). -/
def divDD : ℕ → Frac → Frac → Except Err (Frac × Frac)
  | 0, _, _ => .error .fuel
  | fuel + 1, a, b => do
      let (r, b2) ← mulDD fuel a (invF b)
      let b3 ← reduceF fuel (invF b2)
      .ok (r, b3)

/-- `Frac.mul$$`: `this.mul$(other.reduce$())`.  The returned pair is
(result, final state of `other`), i.e. the reduced operand.  (`mul$` cannot
mutate a flat operand, and `reduce$` always returns a flat fraction —
`reduceF_flat` below.) -/
def mulDD : ℕ → Frac → Frac → Except Err (Frac × Frac)
  | 0, _, _ => .error .fuel
  | fuel + 1, a, b => do
      let br ← reduceF fuel b
      let r ← mulF fuel a br
      .ok (r, br)

/-- Combining one pair of slots in `mul$` after cross-cancellation: a plain
product through the validating setter when both are numbers, otherwise
`Frac.#from(slot).mul$$(Frac.#from(operandSlot))` stored back as a nested
fraction. -/
def combineSlots : ℕ → Slot → Slot → Bool → Except Err Slot
  | 0, _, _, _ => .error .fuel
  | fuel + 1, s1, s2, pos =>
      match s1, s2 with
      | .num x, .num y =>
          (validateNumber (toJsNum (jsMulO x y)) pos).map
            (fun z => Slot.num (some z))
      | t1, t2 => do
          let fa ← fromSlot t1
          let fb ← fromSlot t2
          let (r, _) ← mulDD fuel fa fb
          .ok (Slot.sub r.n r.d)

/-- `Frac.mul$`: cross-cancel `(this.#n, other.d)` and `(this.#d, other.n)`
with `Arith.ratio` when both are numbers (written directly into the private
fields, bypassing the setters), then combine the numerator pair and the
denominator pair, and finally `return this.reduce$()`. -/
def mulF : ℕ → Frac → Frac → Except Err Frac
  | 0, _, _ => .error .fuel
  | fuel + 1, a, b =>
      let p1 := crossCancel a.n b.d
      let p2 := crossCancel a.d b.n
      do
        let newN ← combineSlots fuel p1.1 p2.2 true
        let newD ← combineSlots fuel p2.1 p1.2 false
        reduceF fuel ⟨newN, newD⟩

end

/-- `Frac.add$$`: reduce both sides, `d = Arith.lcm(l.d, r.d)`,
`this.n = d / l.d * l.n + d / r.d * r.n`, `this.d = d` (through the
setters), then `return this.reduce$()`.  The returned pair is
(result, final state of `other`). -/
def addDD (fuel : ℕ) (a b : Frac) : Except Err (Frac × Frac) := do
  let l ← reduceF fuel a
  let r ← reduceF fuel b
  let dd := Arith.lcm (slotNum l.d) (slotNum r.d)
  let n' ← validateNumber (toJsNum (jsAddO
      (jsMulO (jsDivO dd (slotNum l.d)) (slotNum l.n))
      (jsMulO (jsDivO dd (slotNum r.d)) (slotNum r.n)))) true
  let d' ← validateNumber (toJsNum dd) false
  let res ← reduceF fuel ⟨.num (some n'), .num (some d')⟩
  .ok (res, r)

/-- `Frac.sub$$`: `const r = other.reduce$()`, then
`this.add$$(Frac.#from(-r.n, r.d))`.  The returned pair is
(result, final state of `other`). -/
def subDD (fuel : ℕ) (a b : Frac) : Except Err (Frac × Frac) := do
  let r ← reduceF fuel b
  let o ← fromPair (.sNum (toJsNum (jsNegO (slotNum r.n)))) (slotToSet r.d)
  let (res, _) ← addDD fuel a o
  .ok (res, r)

/-- `Frac.pow$`: a negative exponent inverts `this` in place and is replaced
by its absolute value; then `this.reduce$()`, and finally
`frac.n **= power; frac.d **= power` through the setters. -/
def powF (fuel : ℕ) (f : Frac) (p : ℤ) : Except Err Frac := do
  let f1 := if p < 0 then invF f else f
  let k : ℕ := p.natAbs
  let fr ← reduceF fuel f1
  let n' ← validateNumber (toJsNum (jsPowO (slotNum fr.n) k)) true
  let d' ← validateNumber (toJsNum (jsPowO (slotNum fr.d) k)) false
  .ok ⟨.num (some n'), .num (some d')⟩

/-! ### String to number conversion

`Parser.getNumber` converts the characters it collected with the JS unary
`+`, i.e. the ECMAScript `StringNumericLiteral` grammar.  The collected run
never contains whitespace (whitespace is a delimiter), so the
leading/trailing-whitespace rules of `ToNumber` are irrelevant here. -/

/-- Value of a character as a digit in base `r` (for `r ≤ 36`). -/
def digitValR (r : ℕ) (c : Char) : Option ℕ :=
  let v :=
    if '0' ≤ c ∧ c ≤ '9' then some (c.toNat - 48)
    else if 'a' ≤ c ∧ c ≤ 'z' then some (c.toNat - 97 + 10)
    else if 'A' ≤ c ∧ c ≤ 'Z' then some (c.toNat - 65 + 10)
    else none
  match v with
  | some d => if d < r then some d else none
  | none => none

/-- Value of a base-`r` digit string (all characters must be digits). -/
def radixVal (r : ℕ) (l : List Char) : Option ℕ :=
  l.foldl (fun acc c => do
    let a ← acc
    let d ← digitValR r c
    pure (a * r + d)) (some 0)

/-- Decimal value of a digit run (big-endian). -/
def digitsVal (l : List Char) : ℕ :=
  l.foldl (fun acc c => acc * 10 + (c.toNat - 48)) 0

/-- A non-decimal ECMAScript integer literal: `0x`/`0X`, `0o`/`0O`,
`0b`/`0B` followed by at least one digit of the base (no sign allowed). -/
def nonDecimalVal (l : List Char) : Option ℕ :=
  match l with
  | c0 :: c :: rest =>
      if c0 ≠ '0' then none
      else if rest = [] then none
      else if c = 'x' ∨ c = 'X' then radixVal 16 rest
      else if c = 'o' ∨ c = 'O' then radixVal 8 rest
      else if c = 'b' ∨ c = 'B' then radixVal 2 rest
      else none
  | _ => none

/-- The optional exponent part: empty, or `e`/`E`, an optional sign, and at
least one digit, consuming the whole remainder. -/
def expPart (l : List Char) : Option ℤ :=
  match l with
  | [] => some 0
  | c :: rest =>
      if c = 'e' ∨ c = 'E' then
        let neg : Bool := rest.head? == some '-'
        let ds :=
          if (rest.head? == some '-') || (rest.head? == some '+') then rest.tail
          else rest
        if ds ≠ [] ∧ ds.all Char.isDigit then
          some (if neg then -(digitsVal ds : ℤ) else (digitsVal ds : ℤ))
        else none
      else none

/-- `StrUnsignedDecimalLiteral` without the `Infinity` production:
`digits [. digits] [exp]` or `. digits [exp]`. -/
def unsignedDec (l : List Char) : Option QJ :=
  let p := l.span Char.isDigit
  let ds := p.1
  if ds = [] then
    if p.2.head? = some '.' then
      let q := p.2.tail.span Char.isDigit
      if q.1 = [] then none
      else (expPart q.2).map (fun e =>
        QJ.mulPow10 ⟨(digitsVal q.1 : ℤ), 10 ^ q.1.length⟩ e)
    else none
  else
    if p.2.head? = some '.' then
      let q := p.2.tail.span Char.isDigit
      (expPart q.2).map (fun e =>
        QJ.mulPow10
          ⟨(digitsVal ds : ℤ) * 10 ^ q.1.length + (digitsVal q.1 : ℤ),
            10 ^ q.1.length⟩ e)
    else (expPart p.2).map (fun e => QJ.mulPow10 (QJ.ofInt (digitsVal ds : ℤ)) e)

/-- ECMAScript `ToNumber` on a whitespace-free string (the JS unary `+`
applied to the run collected by `Parser.getNumber`). -/
def jsToNumber (l : List Char) : JsNum :=
  if l = [] then .fin (QJ.ofInt 0)
  else
    match nonDecimalVal l with
    | some n => .fin (QJ.ofInt (n : ℤ))
    | none =>
        let neg : Bool := l.head? == some '-'
        let rest :=
          if (l.head? == some '-') || (l.head? == some '+') then l.tail else l
        if rest = "Infinity".data then .inf (!neg)
        else
          match unsignedDec rest with
          | some q => .fin (if neg then q.neg else q)
          | none => .nan

/-! ### The parser (`src/Parser.ts`)

The source tracks an index into a fixed string; the embedding consumes from
the front of a character list, which is the same state up to the
isomorphism `position ↦ remaining suffix`.  Error positions/caret
renderings are presentation details and are not modelled beyond the
message. -/

/-- Token classes of `Parser.getToken`. -/
inductive Token where
  | ws
  | numTok
  | lparen
  | rparen
  | divTok
deriving DecidableEq, Repr

/-- The JS `\s` character class (ASCII and Unicode whitespace). -/
def jsIsSpace (c : Char) : Bool :=
  c = ' ' || c = '\t' || c = '\n' || c = '\x0b' || c = '\x0c' || c = '\r' ||
  c.val == 0xa0 || c.val == 0x1680 ||
  (0x2000 ≤ c.val && c.val ≤ 0x200a) ||
  c.val == 0x2028 || c.val == 0x2029 || c.val == 0x202f ||
  c.val == 0x205f || c.val == 0x3000 || c.val == 0xfeff

/-- `Parser.getToken` on one character: `(`, `)`, `/` are themselves;
whitespace is `WHITESPACE`; anything else counts as `NUMBER`. -/
def getTokenC (c : Char) : Token :=
  if c = '(' then .lparen
  else if c = ')' then .rparen
  else if c = '/' then .divTok
  else if jsIsSpace c then .ws
  else .numTok

/-- `Parser.getToken` at the current position; past the end of the input the
character is `undefined`, which is falsy, giving `WHITESPACE`. -/
def getToken : List Char → Token
  | [] => .ws
  | c :: _ => getTokenC c

/-- `Parser.eatWhitespace`. -/
def eatWs (l : List Char) : List Char :=
  l.dropWhile (fun c => getTokenC c == Token.ws)

/-- `Parser.getNumber`: the maximal run of `NUMBER`-class characters and the
remaining input. -/
def numRun (l : List Char) : List Char × List Char :=
  l.span (fun c => getTokenC c == Token.numTok)

/-- `Parser.parse`, a recursive-descent pass returning the parsed fraction
and the remaining input.  Nested parses are fuelled; `s.length + 1` fuel is
always enough (each nested parse consumes at least the opening
parenthesis). -/
def parseP : ℕ → List Char → Except Err (Frac × List Char)
  | 0, _ => .error .fuel
  | fuel + 1, l0 =>
    let l1 := eatWs l0
    if getToken l1 != Token.lparen then .error (.syn "missing lparen")
    else
      let l2 := eatWs l1.tail
      do
      let nl3 ← (match getToken l2 with
        | .numTok =>
            let p := numRun l2
            .ok (SetVal.sNum (jsToNumber p.1), p.2)
        | .lparen => do
            let (f, rest) ← parseP fuel l2
            .ok (SetVal.sFrac f, rest)
        | _ => .error (.syn "expected a number or a fraction in the numerator"))
      let l4 := eatWs nl3.2
      if getToken l4 != Token.divTok then .error (.syn "expedted div")
      else
        let l5 := eatWs l4.tail
        do
        let dl6 ← (match getToken l5 with
          | .numTok =>
              let p := numRun l5
              .ok (SetVal.sNum (jsToNumber p.1), p.2)
          | .lparen => do
              let (f, rest) ← parseP fuel l5
              .ok (SetVal.sFrac f, rest)
          | _ => .error (.syn "expected a number or a fraction in the denominator"))
        let l7 := eatWs dl6.2
        if getToken l7 != Token.rparen then .error (.syn "missing rparen")
        else
          let l8 := eatWs l7.tail
          do
          let f ← fromPair nl3.1 dl6.1
          .ok (f, l8)

/-- `Frac.parse`: run the parser, then require the whole input to have been
consumed. -/
def parseApi (s : List Char) : Except Err Frac :=
  match parseP (s.length + 1) s with
  | .error e => .error e
  | .ok (f, rest) =>
      if rest = [] then .ok f else .error (.syn "unexpected end of input")

/-! ### The public constructor (`Frac.constructor` / `Frac.#validateArgs`
with deep copy) -/

/-- The `numerator` argument of the constructor. -/
inductive NumSrc where
  | undef
  | num (x : JsNum)
  | str (s : List Char)
  | frc (f : Frac)
deriving DecidableEq, Repr

/-- The `denominator` argument of the constructor (its TypeScript type does
not admit strings). -/
inductive DenSrc where
  | undef
  | num (x : JsNum)
  | frc (f : Frac)
deriving DecidableEq, Repr

/-- Validate one slot during a deep copy: numbers go through
`#validateArgs`' number branch, nested fractions are copied recursively.
In the source the copy of a nested `Frac` is `new Frac(e.n, e.d)`, whose
argument validation recurses into this same function on the two slots; that
recursion is inlined here so the definition is structural on the slot. -/
def copySlot (isNumerator : Bool) : Slot → Except Err Slot
  | .num v => (validateNumber (toJsNum v) isNumerator).map (fun z => Slot.num (some z))
  | .sub a b => do
      let n' ← copySlot true a
      let d' ← copySlot false b
      .ok (.sub n' d')

/-- Deep copy: `new Frac(e.n, e.d)` for `e instanceof Frac` — each slot is
re-validated (so a copy of a corrupted fraction can throw). -/
def copyFrac (f : Frac) : Except Err Frac := do
  let n' ← copySlot true f.n
  let d' ← copySlot false f.d
  .ok ⟨n', d'⟩

/-- `Frac.#validateArgs(e, true)` (deep-copying, numerator slot). -/
def validateArgsN (e : NumSrc) : Except Err (Option (ℤ ⊕ Frac)) :=
  match e with
  | .undef => .ok none
  | .num x => (validateNumber x true).map (fun z => some (.inl z))
  | .str s => (parseApi s).map (fun f => some (.inr f))
  | .frc f => (copyFrac f).map (fun g => some (.inr g))

/-- `Frac.#validateArgs(e, false)` (deep-copying, denominator slot). -/
def validateArgsD (e : DenSrc) : Except Err (Option (ℤ ⊕ Frac)) :=
  match e with
  | .undef => .ok none
  | .num x => (validateNumber x false).map (fun z => some (.inl z))
  | .frc f => (copyFrac f).map (fun g => some (.inr g))

/-- Place a validated argument into a slot. -/
def ndSlot : ℤ ⊕ Frac → Slot
  | .inl z => .num (some z)
  | .inr g => g.toSlot

/-- The public constructor.  Decodes exactly the source's branches: an
omitted numerator gives `0/1` (the denominator is still validated first); a
present, truthy denominator gives `[n, d]` (a validated denominator is
always truthy: numbers have been checked nonzero and non-`NaN`); a number
numerator alone gives `n/1`; a `Frac` numerator alone returns its deep
copy. -/
def ctor (numerator : NumSrc) (denominator : DenSrc) : Except Err Frac := do
  let nv ← validateArgsN numerator
  let dv ← validateArgsD denominator
  match nv with
  | none => .ok ⟨.num (some 0), .num (some 1)⟩
  | some nn =>
    match dv with
    | some dd => .ok ⟨ndSlot nn, ndSlot dd⟩
    | none =>
      match nn with
      | .inl z => .ok ⟨.num (some z), .num (some 1)⟩
      | .inr g => .ok g

/-! ### Public operations -/

/-- `Frac.add`: `new Frac(this).add$$(new Frac(...other))`. -/
def addApi (fuel : ℕ) (x : Frac) (nArg : NumSrc) (dArg : DenSrc) :
    Except Err Frac := do
  let xc ← ctor (.frc x) .undef
  let o ← ctor nArg dArg
  let (r, _) ← addDD fuel xc o
  .ok r

/-- `Frac.sub`: `new Frac(this).sub$$(new Frac(...other))`. -/
def subApi (fuel : ℕ) (x : Frac) (nArg : NumSrc) (dArg : DenSrc) :
    Except Err Frac := do
  let xc ← ctor (.frc x) .undef
  let o ← ctor nArg dArg
  let (r, _) ← subDD fuel xc o
  .ok r

/-- `Frac.mul`: `new Frac(this).mul$$(new Frac(...other))`. -/
def mulApi (fuel : ℕ) (x : Frac) (nArg : NumSrc) (dArg : DenSrc) :
    Except Err Frac := do
  let xc ← ctor (.frc x) .undef
  let o ← ctor nArg dArg
  let (r, _) ← mulDD fuel xc o
  .ok r

/-- `Frac.div`: `new Frac(this).div$$(new Frac(...other))`. -/
def divApi (fuel : ℕ) (x : Frac) (nArg : NumSrc) (dArg : DenSrc) :
    Except Err Frac := do
  let xc ← ctor (.frc x) .undef
  let o ← ctor nArg dArg
  let (r, _) ← divDD fuel xc o
  .ok r

/-- `Frac.pow`: `new Frac(this).pow$(power)`. -/
def powApi (fuel : ℕ) (x : Frac) (p : ℤ) : Except Err Frac := do
  let xc ← ctor (.frc x) .undef
  powF fuel xc p

/-- `Frac.reduce`: `new Frac(this).reduce$()`. -/
def reduceApi (fuel : ℕ) (x : Frac) : Except Err Frac := do
  let xc ← ctor (.frc x) .undef
  reduceF fuel xc

/-- `Frac.inv`: `new Frac(this).inv$()` — a deep copy with the two slots
swapped, no validation of the swapped shape. -/
def invApi (x : Frac) : Except Err Frac := do
  let xc ← ctor (.frc x) .undef
  .ok (invF xc)

/-- Exact quotient of two stored numbers as the JS float `x.n / x.d` of
`valueOf` (`none` models `NaN`; a zero divisor cannot occur on the result
of a successful `reduce$`).  The float is modelled as the exact rational —
see the header comment on rounding. -/
def jsDivQ : JNum → JNum → Option QJ
  | some x, some y => if y = 0 then none else some ⟨x, y⟩
  | _, _ => none

/-- `Frac.valueOf`: `const x = this.reduce(); return x.n / x.d`. -/
def valueOfApi (fuel : ℕ) (x : Frac) : Except Err (Option QJ) := do
  let xc ← ctor (.frc x) .undef
  let r ← reduceF fuel xc
  .ok (jsDivQ (slotNum r.n) (slotNum r.d))

/-- `Frac.compare`: apply a relation to `this.valueOf()` and
`new Frac(...other).valueOf()`. -/
def compareApi (fuel : ℕ) (rel : Option QJ → Option QJ → Bool) (x : Frac)
    (nArg : NumSrc) (dArg : DenSrc) : Except Err Bool := do
  let l ← valueOfApi fuel x
  let o ← ctor nArg dArg
  let r ← valueOfApi fuel o
  .ok (rel l r)

/-- JS `===` on two numbers (`NaN === NaN` is false). -/
def jsEqQ : Option QJ → Option QJ → Bool
  | some a, some b => QJ.eq a b
  | _, _ => false

/-- `Frac.eq`. -/
def eqApi (fuel : ℕ) (x : Frac) (nArg : NumSrc) (dArg : DenSrc) :
    Except Err Bool :=
  compareApi fuel jsEqQ x nArg dArg

/-! ### The serializer (`Frac.toString` with default arguments) -/

/-- Decimal digits of a natural number, most significant first, with an
explicit bound on the digit count so the recursion is structural. -/
def natToStrGo : ℕ → ℕ → List Char
  | 0, _ => []
  | fuel + 1, n =>
      if n < 10 then [Nat.digitChar n]
      else natToStrGo fuel (n / 10) ++ [Nat.digitChar (n % 10)]

/-- Decimal digits of a natural number, most significant first. -/
def natToStr (n : ℕ) : List Char := natToStrGo (n + 1) n

/-- JS number-to-string for a stored number: safe integers print in
decimal, `NaN` prints as `"NaN"`. -/
def jsNumToStr : JNum → List Char
  | none => "NaN".data
  | some z => if z < 0 then '-' :: natToStr z.natAbs else natToStr z.natAbs

/-- `Frac.toString` with the default arguments (`spaces = 1`, `indent = 0`,
`indentLevel = 0`, hence no newlines and single spaces):
`"(" + n + " / " + d + ")"`, recursing into nested fractions with the same
arguments. -/
def serSlot : Slot → List Char
  | .num v => jsNumToStr v
  | .sub a b => '(' :: (serSlot a ++ (' ' :: '/' :: ' ' :: serSlot b) ++ [')'])

/-- `toString` of a whole fraction. -/
def serFrac (f : Frac) : List Char := serSlot f.toSlot

/-! ### Semantic predicates -/

/-- Well-formedness of a slot: every stored number is a safe integer (no
`NaN`), and no denominator slot at any level holds the plain integer `0`.
Every fraction reachable without `inv`/`inv$` satisfies this. -/
def wfSlot : Slot → Bool
  | .num none => false
  | .num (some z) => isSafeInt z
  | .sub n d => wfSlot n && wfSlot d && !(d == Slot.num (some 0))

/-- Well-formedness of a fraction. -/
def wfF (f : Frac) : Bool := wfSlot f.toSlot

/-- No plain-integer-zero denominator at any nesting level (the invariant
claimed in the specification, without the safe-range part). -/
def nzdSlot : Slot → Bool
  | .num _ => true
  | .sub n d => nzdSlot n && nzdSlot d && !(d == Slot.num (some 0))

/-- `nzdSlot` for a whole fraction. -/
def nzdF (f : Frac) : Bool := nzdSlot f.toSlot

/-- Exact rational value of a slot: `none` when a `NaN` is stored or some
denominator has value zero. -/
def svalSlot : Slot → Option ℚ
  | .num none => none
  | .num (some z) => some (z : ℚ)
  | .sub n d =>
      match svalSlot n, svalSlot d with
      | some a, some b => if b = 0 then none else some (a / b)
      | _, _ => none

/-- Exact rational value of a fraction. -/
def fval (f : Frac) : Option ℚ := svalSlot f.toSlot

/-- The shape of every successful `reduce$` result: two safe integers with
a positive denominator. -/
def flatPos (f : Frac) : Prop :=
  ∃ a b : ℤ, f = ⟨.num (some a), .num (some b)⟩ ∧
    isSafeInt a ∧ isSafeInt b ∧ 0 < b

/-- Canonical form: flat, positive denominator, and coprime. -/
def canonicalF (f : Frac) : Prop :=
  ∃ a b : ℤ, f = ⟨.num (some a), .num (some b)⟩ ∧
    isSafeInt a ∧ isSafeInt b ∧ 0 < b ∧ Nat.gcd a.natAbs b.natAbs = 1

/-- Number of fraction nodes in a slot (the count of non-integer leaves
driving the termination argument of the specification). -/
def nuSlot : Slot → ℕ
  | .num _ => 0
  | .sub a b => nuSlot a + nuSlot b + 1

/-- Number of fraction nodes strictly below the top of a fraction. -/
def muF (f : Frac) : ℕ := nuSlot f.n + nuSlot f.d

/-- Nesting depth of a slot (a plain number has depth 0). -/
def sdepth : Slot → ℕ
  | .num _ => 0
  | .sub a b => max (sdepth a) (sdepth b) + 1

/-! ### Helper lemmas for `Except` -/

theorem ebind_ok {α β : Type} (x : Except Err α) (f : α → Except Err β)
    (b : β) : (x >>= f) = .ok b ↔ ∃ a, x = .ok a ∧ f a = .ok b := by
  cases x <;> simp [Bind.bind, Except.bind]

theorem ebind_err {α β : Type} (x : Except Err α) (f : α → Except Err β)
    (e : Err) :
    (x >>= f) = .error e ↔
      x = .error e ∨ ∃ a, x = .ok a ∧ f a = .error e := by
  cases x <;> simp [Bind.bind, Except.bind]

theorem emap_ok {α β : Type} (x : Except Err α) (g : α → β) (b : β) :
    x.map g = .ok b ↔ ∃ a, x = .ok a ∧ g a = b := by
  cases x <;> simp [Except.map]

/-! ### Facts about the validators -/

theorem validateNumber_ok_safe {e : JsNum} {b : Bool} {z : ℤ}
    (h : validateNumber e b = .ok z) : isSafeInt z = true := by
  cases e with
  | fin q =>
      simp only [validateNumber] at h
      split at h
      · exact absurd h (by simp)
      · split at h
        · cases h; assumption
        · exact absurd h (by simp)
  | nan => simp [validateNumber] at h
  | inf p => simp [validateNumber] at h

theorem validateNumber_den_ne {e : JsNum} {z : ℤ}
    (h : validateNumber e false = .ok z) : z ≠ 0 := by
  cases e with
  | fin q =>
      simp only [validateNumber] at h
      split at h
      · exact absurd h (by simp)
      · split at h
        · cases h
          rename_i hz _
          simpa using hz
        · exact absurd h (by simp)
  | nan => simp [validateNumber] at h
  | inf p => simp [validateNumber] at h

/-- Floor of an embedded integer. -/
theorem QJ.floor_ofInt (z : ℤ) : (QJ.ofInt z).floor = z := by
  simp [QJ.ofInt, QJ.floor, Int.fdiv_one]

/-- Evaluation of the validator on an integer numerator. -/
theorem validateNumber_int_num (z : ℤ) :
    validateNumber (.fin (QJ.ofInt z)) true =
      if isSafeInt z then .ok z else .error .numOverflow := by
  simp [validateNumber, QJ.floor_ofInt]

/-- Evaluation of the validator on an integer denominator. -/
theorem validateNumber_int_den (z : ℤ) :
    validateNumber (.fin (QJ.ofInt z)) false =
      if z = 0 then .error .divByZero
      else if isSafeInt z then .ok z else .error .denOverflow := by
  by_cases hz : z = 0 <;> simp [validateNumber, QJ.floor_ofInt, hz]

/-- A successful denominator validation of an absolute value is positive. -/
theorem validateNumber_abs_pos {w : JNum} {z : ℤ}
    (h : validateNumber (toJsNum (jsAbsO w)) false = .ok z) : 0 < z := by
  cases w with
  | none => simp [jsAbsO, toJsNum, validateNumber] at h
  | some u =>
      have hne := validateNumber_den_ne h
      simp only [jsAbsO, toJsNum] at h
      rw [validateNumber_int_den] at h
      split at h
      · exact absurd h (by simp)
      · split at h
        · cases h
          rename_i hz0 _
          omega
        · exact absurd h (by simp)

/-! ### Flatness of successful reductions -/

theorem engineFlat (fuel : ℕ) :
    (∀ f r, reduceF fuel f = .ok r → flatPos r) ∧
    (∀ a b r o, divDD fuel a b = .ok (r, o) → flatPos r ∧ flatPos o) ∧
    (∀ a b r o, mulDD fuel a b = .ok (r, o) → flatPos r ∧ flatPos o) ∧
    (∀ a b r, mulF fuel a b = .ok r → flatPos r) := by
  induction fuel with
  | zero =>
      refine ⟨?_, ?_, ?_, ?_⟩ <;> intro _ _ <;> simp [reduceF, divDD, mulDD, mulF]
  | succ n ih =>
    obtain ⟨ihR, ihD, ihM, ihF⟩ := ih
    have hRed : ∀ f r, reduceF (n + 1) f = .ok r → flatPos r := by
      rintro ⟨fn, fd⟩ r h
      have hNest :
          ∀ (h : (do
              let a ← fromSlot fn
              let b ← fromSlot fd
              let rr ← divDD n a b
              (.ok ⟨rr.1.n, rr.1.d⟩ : Except Err Frac)) = .ok r), flatPos r := by
        intro h
        rw [ebind_ok] at h
        obtain ⟨a, _, h⟩ := h
        rw [ebind_ok] at h
        obtain ⟨b, _, h⟩ := h
        rw [ebind_ok] at h
        obtain ⟨⟨rr, oo⟩, hdd, h⟩ := h
        cases h
        obtain ⟨x, y, hxy, hx⟩ := (ihD _ _ _ _ hdd).1
        exact ⟨x, y, by rw [hxy], hx⟩
      cases fn with
      | num nv =>
          cases fd with
          | num dv =>
              simp only [reduceF] at h
              rw [ebind_ok] at h
              obtain ⟨n', hn', h⟩ := h
              rw [ebind_ok] at h
              obtain ⟨d', hd', h⟩ := h
              cases h
              exact ⟨n', d', rfl, validateNumber_ok_safe hn',
                validateNumber_ok_safe hd', validateNumber_abs_pos hd'⟩
          | sub da db =>
              simp only [reduceF] at h
              exact hNest h
      | sub na nb =>
          simp only [reduceF] at h
          exact hNest h
    refine ⟨hRed, ?_, ?_, ?_⟩
    · rintro a b r o h
      simp only [divDD] at h
      rw [ebind_ok] at h
      obtain ⟨⟨rr, b2⟩, hm, h⟩ := h
      rw [ebind_ok] at h
      obtain ⟨b3, hb3, h⟩ := h
      cases h
      exact ⟨(ihM _ _ _ _ hm).1, ihR _ _ hb3⟩
    · rintro a b r o h
      simp only [mulDD] at h
      rw [ebind_ok] at h
      obtain ⟨br, hbr, h⟩ := h
      rw [ebind_ok] at h
      obtain ⟨rr, hrr, h⟩ := h
      cases h
      exact ⟨ihF _ _ _ hrr, ihR _ _ hbr⟩
    · rintro a b r h
      simp only [mulF] at h
      rw [ebind_ok] at h
      obtain ⟨newN, _, h⟩ := h
      rw [ebind_ok] at h
      obtain ⟨newD, _, h⟩ := h
      exact ihR _ _ h

/-- Every successful `reduce$` returns a flat fraction of safe integers
with a positive denominator. -/
theorem reduceF_flat {fuel : ℕ} {f r : Frac} (h : reduceF fuel f = .ok r) :
    flatPos r :=
  (engineFlat fuel).1 f r h

/-! ### Arithmetic facts about `Arith.gcd` -/

theorem gcd_int_spec_aux :
    ∀ (n : ℕ) (a b : ℤ), b.natAbs ≤ n → ¬(a = 0 ∧ b = 0) →
    ∃ s : ℤ, Arith.gcd (some a) (some b) = some s ∧ s ≠ 0 ∧ s ∣ a ∧ s ∣ b ∧
      s.natAbs = Nat.gcd a.natAbs b.natAbs := by
  intro n
  induction n with
  | zero =>
      intro a b hb h
      have hb0 : b = 0 := by omega
      subst hb0
      have ha : a ≠ 0 := by tauto
      refine ⟨a, ?_, ha, dvd_rfl, dvd_zero a, by simp⟩
      rw [gcd_unfold]
      simp [jsTruthy, jsModO, ha]
  | succ k ihk =>
      intro a b hb h
      by_cases hb0 : b = 0
      · subst hb0
        have ha : a ≠ 0 := by tauto
        refine ⟨a, ?_, ha, dvd_rfl, dvd_zero a, by simp⟩
        rw [gcd_unfold]
        simp [jsTruthy, jsModO, ha]
      · by_cases ht : a.tmod b = 0
        · -- `a % b` is falsy: the result is `b`
          refine ⟨b, ?_, hb0, ?_, dvd_rfl, ?_⟩
          · rw [gcd_unfold]
            simp [jsTruthy, jsModO, hb0, ht]
          · -- b ∣ a from a % b = 0
            have : b ∣ a := Int.dvd_of_tmod_eq_zero ht
            exact this
          · have hmod : a.natAbs % b.natAbs = 0 := by
              have := natAbs_tmod a b
              rw [ht] at this
              simpa using this.symm
            rw [Nat.gcd_comm, Nat.gcd_rec, hmod, Nat.gcd_zero_left]
        · -- recurse on (b, a % b)
          have hlt : (a.tmod b).natAbs < b.natAbs := natAbs_tmod_lt a hb0
          obtain ⟨s, hs, hs0, hsb, hst, hsg⟩ :=
            ihk b (a.tmod b) (by omega) (by tauto)
          refine ⟨s, ?_, hs0, ?_, hsb, ?_⟩
          · rw [gcd_unfold]
            simp only [jsTruthy, jsModO, if_neg hb0]
            simp [hb0, ht, hs]
          · -- s ∣ a since a = a.tmod b + b * (a.tdiv b)
            have := Int.tmod_add_tdiv a b
            calc s ∣ a.tmod b + b * a.tdiv b := dvd_add hst (Dvd.dvd.mul_right hsb _)
              _ = a := this
          · rw [hsg, natAbs_tmod, Nat.gcd_comm b.natAbs]
            conv_rhs => rw [Nat.gcd_comm, Nat.gcd_rec]

/-- Specification of `Arith.gcd` on two integers, not both zero: it returns
a nonzero common divisor whose absolute value is the gcd of the absolute
values. -/
theorem gcd_int_spec (a b : ℤ) (h : ¬(a = 0 ∧ b = 0)) :
    ∃ s : ℤ, Arith.gcd (some a) (some b) = some s ∧ s ≠ 0 ∧ s ∣ a ∧ s ∣ b ∧
      s.natAbs = Nat.gcd a.natAbs b.natAbs :=
  gcd_int_spec_aux b.natAbs a b le_rfl h

/-! ### Deep copy is the identity on well-formed values -/

theorem copySlot_id (s : Slot) (hw : wfSlot s = true) :
    copySlot true s = .ok s ∧
      (s ≠ .num (some 0) → copySlot false s = .ok s) := by
  induction s with
  | num v =>
      cases v with
      | none => simp [wfSlot] at hw
      | some z =>
          have hz : isSafeInt z = true := by simpa [wfSlot] using hw
          constructor
          · simp [copySlot, toJsNum, validateNumber_int_num, hz, Except.map]
          · intro hne
            have hz0 : z ≠ 0 := by
              intro h
              exact hne (by rw [h])
            simp [copySlot, toJsNum, validateNumber_int_den, hz, hz0,
              Except.map]
  | sub a b iha ihb =>
      simp only [wfSlot, Bool.and_eq_true, Bool.not_eq_true'] at hw
      obtain ⟨⟨hwa, hwb⟩, hbne⟩ := hw
      have hbne' : b ≠ Slot.num (some 0) := by
        intro h
        rw [h] at hbne
        simp at hbne
      constructor
      · simp only [copySlot]
        rw [(iha hwa).1, ((ihb hwb).2 hbne')]
        rfl
      · intro _
        simp only [copySlot]
        rw [(iha hwa).1, ((ihb hwb).2 hbne')]
        rfl

/-- Deep copy reproduces a well-formed fraction exactly. -/
theorem copyFrac_id {f : Frac} (h : wfF f = true) : copyFrac f = .ok f := by
  obtain ⟨fn, fd⟩ := f
  simp only [wfF, Frac.toSlot, wfSlot, Bool.and_eq_true, Bool.not_eq_true'] at h
  obtain ⟨⟨hn, hd⟩, hne⟩ := h
  have hne' : fd ≠ Slot.num (some 0) := by
    intro h
    rw [h] at hne
    simp at hne
  rw [copyFrac]
  rw [(copySlot_id fn hn).1, ((copySlot_id fd hd).2 hne')]
  rfl

/-- `new Frac(this)` on a well-formed fraction succeeds and returns an
identical value. -/
theorem ctor_copy {f : Frac} (h : wfF f = true) :
    ctor (.frc f) .undef = .ok f := by
  simp [ctor, validateArgsN, validateArgsD, copyFrac_id h, Bind.bind,
    Except.bind, Except.map]

/-! ### Evaluation of `reduce$` on two integers -/

/-- `reduce$` on a flat fraction of safe integers with nonzero denominator:
`(a, b) ↦ (a/g * sign b, |b|/g)` with `g = gcd(|a|, |b|)`. -/
theorem reduceF_int_aux (m : ℕ) (a b s : ℤ) (G : ℕ)
    (hs : Arith.gcd (some a) (some b) = some s) (hs0 : s ≠ 0)
    (hsa : s ∣ a) (hsb : s ∣ b) (hsn : s.natAbs = G)
    (ha : isSafeInt a = true) (hb : isSafeInt b = true) (hb0 : b ≠ 0) :
    reduceF (m + 1) ⟨.num (some a), .num (some b)⟩ =
      .ok ⟨.num (some (a / (G : ℤ) * b.sign)),
           .num (some ((b.natAbs : ℤ) / (G : ℤ)))⟩ := by
  have hgN : 0 < G := by
    have := Int.natAbs_pos.mpr hs0
    omega
  have habs : (s.natAbs : ℤ) = (G : ℤ) := by exact_mod_cast hsn
  have hg0 : ((G : ℤ)) ≠ 0 := by exact_mod_cast Nat.pos_iff_ne_zero.mp hgN
  have hga : ((G : ℤ)) ∣ a := by
    rw [← habs]
    exact Int.natAbs_dvd.mpr hsa
  obtain ⟨c, hc⟩ := hga
  obtain ⟨e, he⟩ := hsb
  have he0 : e ≠ 0 := by
    intro h
    rw [h, mul_zero] at he
    exact hb0 he
  have hcdiv : a / (G : ℤ) = c := by
    have h1 := Int.mul_ediv_cancel_left c hg0
    rw [← hc] at h1
    exact h1
  have hctdiv : a.tdiv ((s.natAbs : ℕ) : ℤ) = c := by
    have h1 := Int.mul_tdiv_cancel_left c hg0
    rw [← hc] at h1
    rw [habs]
    exact h1
  have hetdiv : b.tdiv s = e := by
    have h1 := Int.mul_tdiv_cancel_left e hs0
    rw [← he] at h1
    exact h1
  have hmul : b.natAbs = G * e.natAbs := by
    have := congrArg Int.natAbs he
    rw [Int.natAbs_mul, hsn] at this
    exact this
  have heabs : ((e.natAbs : ℕ) : ℤ) = (b.natAbs : ℤ) / (G : ℤ) := by
    rw [hmul]
    push_cast
    rw [Int.mul_ediv_cancel_left _ hg0]
  have hsign1 : b.sign.natAbs = 1 := by
    rw [Int.natAbs_sign, if_neg hb0]
  have hcA : a.natAbs = G * c.natAbs := by
    have := congrArg Int.natAbs hc
    rw [Int.natAbs_mul, Int.natAbs_ofNat] at this
    exact this
  have hcsafe : isSafeInt (c * b.sign) = true := by
    simp only [isSafeInt, Int.natAbs_mul, hsign1, mul_one,
      decide_eq_true_eq] at ha ⊢
    have : c.natAbs ≤ a.natAbs ∨ c.natAbs = 0 := by
      rcases Nat.eq_zero_or_pos c.natAbs with h0 | h0
      · exact Or.inr h0
      · exact Or.inl (by
          rw [hcA]
          calc c.natAbs = 1 * c.natAbs := (one_mul _).symm
            _ ≤ G * c.natAbs := Nat.mul_le_mul_right _ hgN)
    omega
  have hesafe : isSafeInt ((e.natAbs : ℕ) : ℤ) = true := by
    simp only [isSafeInt, decide_eq_true_eq] at hb ⊢
    have hbA : 0 < b.natAbs := Int.natAbs_pos.mpr hb0
    have : e.natAbs ≤ b.natAbs := Nat.le_of_dvd hbA (by
      rw [hmul]
      exact Dvd.intro_left _ rfl)
    simp only [Int.natAbs_ofNat]
    omega
  have hdivn : jsDivO (some a) (jsAbsO (some s)) = some c := by
    simp only [jsAbsO, jsDivO]
    rw [if_neg (by rw [habs]; exact hg0), hctdiv]
  have hdivd : jsAbsO (jsDivO (some b) (some s)) = some ((e.natAbs : ℕ) : ℤ) := by
    simp only [jsDivO, jsAbsO]
    rw [if_neg hs0, hetdiv]
  have hvn : validateNumber (toJsNum (jsMulO (jsDivO (some a)
      (jsAbsO (Arith.gcd (some a) (some b)))) (jsSignO (some b)))) true
      = .ok (c * b.sign) := by
    rw [hs, hdivn]
    simp only [jsSignO, jsMulO, toJsNum]
    rw [validateNumber_int_num, if_pos hcsafe]
  have hvd : validateNumber (toJsNum (jsAbsO (jsDivO (some b)
      (Arith.gcd (some a) (some b))))) false = .ok ((e.natAbs : ℕ) : ℤ) := by
    rw [hs, hdivd]
    simp only [toJsNum]
    rw [validateNumber_int_den]
    rw [if_neg (by
      intro h
      exact he0 (by simpa using h))]
    rw [if_pos hesafe]
  simp only [reduceF]
  rw [hvn]
  simp only [Bind.bind, Except.bind]
  rw [hvd]
  rw [hcdiv, ← heabs]

/-- `reduce$` on a flat fraction of safe integers with nonzero denominator:
`(a, b) ↦ (a/g * sign b, |b|/g)` with `g = gcd(|a|, |b|)`. -/
theorem reduceF_int (m : ℕ) (a b : ℤ) (ha : isSafeInt a = true)
    (hb : isSafeInt b = true) (hb0 : b ≠ 0) :
    reduceF (m + 1) ⟨.num (some a), .num (some b)⟩ =
      .ok ⟨.num (some (a / (Nat.gcd a.natAbs b.natAbs : ℤ) * b.sign)),
           .num (some ((b.natAbs : ℤ) / (Nat.gcd a.natAbs b.natAbs : ℤ)))⟩ := by
  obtain ⟨s, hs, hs0, hsa, hsb, hsn⟩ := gcd_int_spec a b (by tauto)
  exact reduceF_int_aux m a b s _ hs hs0 hsa hsb hsn ha hb hb0

/-!  Claim C3 -/

/-- C3: for safe integers `a`, `b` with `b ≠ 0`, `new Frac(a, b).reduce()`
yields numerator `(a/g) * sign b` and denominator `|b|/g` with
`g = gcd(|a|, |b|)`; the denominator is strictly positive, and `a = 0`
reduces to `0/1`. -/
theorem claim_C3 (a b : ℤ) (fuel : ℕ) (ha : isSafeInt a = true)
    (hb : isSafeInt b = true) (hb0 : b ≠ 0) (hf : 0 < fuel) :
    ∃ x, ctor (.num (.fin (QJ.ofInt a))) (.num (.fin (QJ.ofInt b))) = .ok x ∧
      reduceApi fuel x =
        .ok ⟨.num (some (a / (Nat.gcd a.natAbs b.natAbs : ℤ) * b.sign)),
             .num (some ((b.natAbs : ℤ) / (Nat.gcd a.natAbs b.natAbs : ℤ)))⟩ ∧
      0 < (b.natAbs : ℤ) / (Nat.gcd a.natAbs b.natAbs : ℤ) ∧
      (a = 0 → reduceApi fuel x = .ok ⟨.num (some 0), .num (some 1)⟩) := by
  obtain ⟨m, rfl⟩ : ∃ m, fuel = m + 1 := ⟨fuel - 1, by omega⟩
  have hx : ctor (.num (.fin (QJ.ofInt a))) (.num (.fin (QJ.ofInt b))) =
      .ok ⟨.num (some a), .num (some b)⟩ := by
    simp only [ctor, validateArgsN, validateArgsD]
    rw [validateNumber_int_num, if_pos ha, validateNumber_int_den,
      if_neg hb0, if_pos hb]
    rfl
  have hwf : wfF ⟨.num (some a), .num (some b)⟩ = true := by
    simp only [wfF, Frac.toSlot, wfSlot, Bool.and_eq_true, Bool.not_eq_true']
    refine ⟨⟨ha, hb⟩, ?_⟩
    simpa using hb0
  have hred : reduceApi (m + 1) ⟨.num (some a), .num (some b)⟩ =
      .ok ⟨.num (some (a / (Nat.gcd a.natAbs b.natAbs : ℤ) * b.sign)),
           .num (some ((b.natAbs : ℤ) / (Nat.gcd a.natAbs b.natAbs : ℤ)))⟩ := by
    rw [reduceApi, ctor_copy hwf]
    simp only [Bind.bind, Except.bind]
    exact reduceF_int m a b ha hb hb0
  have hbA : 0 < b.natAbs := Int.natAbs_pos.mpr hb0
  have hgN : 0 < Nat.gcd a.natAbs b.natAbs := Nat.gcd_pos_of_pos_right _ hbA
  have hgdvd : Nat.gcd a.natAbs b.natAbs ∣ b.natAbs := Nat.gcd_dvd_right _ _
  have hpos : 0 < (b.natAbs : ℤ) / (Nat.gcd a.natAbs b.natAbs : ℤ) := by
    rw [← Int.ofNat_ediv]
    exact_mod_cast Nat.div_pos (Nat.le_of_dvd hbA hgdvd) hgN
  refine ⟨_, hx, hred, hpos, ?_⟩
  intro ha0
  subst ha0
  rw [hred]
  have hg : Nat.gcd (0 : ℤ).natAbs b.natAbs = b.natAbs := by simp
  rw [hg]
  congr 2
  · simp
  · rw [Int.ediv_self]
    exact_mod_cast Nat.pos_iff_ne_zero.mp hbA

/-- Witness for C3 at `a = 2`, `b = 4`, fuel 1. -/
theorem claim_C3_witness :
    ∃ x, ctor (.num (.fin (QJ.ofInt 2))) (.num (.fin (QJ.ofInt 4))) = .ok x ∧
      reduceApi 1 x =
        .ok ⟨.num (some ((2 : ℤ) / (Nat.gcd (2 : ℤ).natAbs (4 : ℤ).natAbs : ℤ) * (4 : ℤ).sign)),
             .num (some (((4 : ℤ).natAbs : ℤ) / (Nat.gcd (2 : ℤ).natAbs (4 : ℤ).natAbs : ℤ)))⟩ ∧
      0 < ((4 : ℤ).natAbs : ℤ) / (Nat.gcd (2 : ℤ).natAbs (4 : ℤ).natAbs : ℤ) ∧
      ((2 : ℤ) = 0 → reduceApi 1 x = .ok ⟨.num (some 0), .num (some 1)⟩) :=
  claim_C3 2 4 1 (by decide) (by decide) (by decide) (by decide)

/-! ### Shape lemmas -/

theorem flatPos_nzd {f : Frac} (h : flatPos f) : nzdF f = true := by
  obtain ⟨a, b, rfl, _, _, hb⟩ := h
  have hb0 : b ≠ 0 := by omega
  simp [nzdF, Frac.toSlot, nzdSlot, hb0]

theorem flatPos_wf {f : Frac} (h : flatPos f) : wfF f = true := by
  obtain ⟨a, b, rfl, ha, hb, hbp⟩ := h
  have hb0 : b ≠ 0 := by omega
  simp [wfF, Frac.toSlot, wfSlot, ha, hb, hb0]

/-- Reducing a flat fraction whose denominator is the plain integer `0`
(and whose numerator is nonzero) throws `DivisionByZero`: the numerator
line stores `b/|b| * sign(0) = 0`, then the denominator line computes
`|0 / b| = 0`, which the setter rejects. -/
theorem reduceF_den_zero (m : ℕ) (b : ℤ) (hb0 : b ≠ 0) :
    reduceF (m + 1) ⟨.num (some b), .num (some 0)⟩ = .error .divByZero := by
  have hgcd : Arith.gcd (some b) (some 0) = some b := by
    rw [gcd_unfold]
    simp [jsTruthy, jsModO, hb0]
  have h1 : jsMulO (jsDivO (some b) (jsAbsO (some b))) (jsSignO (some 0)) =
      some 0 := by
    simp [jsAbsO, jsDivO, jsSignO, jsMulO, hb0]
  have h2 : jsAbsO (jsDivO (some 0) (some b)) = some 0 := by
    simp [jsDivO, jsAbsO, hb0, Int.zero_tdiv]
  simp only [reduceF]
  rw [hgcd, h1, h2]
  rfl

/-! ### Claim C10 -/

/-- C10: with the numerator omitted, the constructor validates the
denominator argument (errors propagate) but otherwise ignores it, always
producing `0/1`. -/
theorem claim_C10 :
    (∀ d : DenSrc, ctor .undef d =
      (validateArgsD d).map (fun _ => (⟨.num (some 0), .num (some 1)⟩ : Frac))) ∧
    ctor .undef (.num (.fin (QJ.ofInt 0))) = .error .divByZero ∧
    ctor .undef (.num .nan) = .error .denOverflow ∧
    ctor .undef (.num (.fin (QJ.ofInt 7))) = .ok ⟨.num (some 0), .num (some 1)⟩ ∧
    ctor .undef .undef = .ok ⟨.num (some 0), .num (some 1)⟩ := by
  refine ⟨?_, rfl, rfl, rfl, rfl⟩
  intro d
  cases h : validateArgsD d with
  | error e => simp [ctor, validateArgsN, h, Bind.bind, Except.bind, Except.map]
  | ok v => simp [ctor, validateArgsN, h, Bind.bind, Except.bind, Except.map]

/-! ### Claim C7 (corrected) -/

/-- Counterexample to C7 as stated: `v = new Frac(1, new Frac(0, 1))` is a
constructible fraction, but `v.pow(0)` throws `DivisionByZero` (reducing
the base divides by the zero-valued denominator) instead of returning
`1/1`. -/
theorem claim_C7_cex :
    ctor (.num (.fin (QJ.ofInt 1))) (.frc ⟨.num (some 0), .num (some 1)⟩) =
      .ok ⟨.num (some 1), .sub (.num (some 0)) (.num (some 1))⟩ ∧
    powApi 10 ⟨.num (some 1), .sub (.num (some 0)) (.num (some 1))⟩ 0 =
      .error .divByZero := ⟨rfl, rfl⟩

/-- C7 (amended): whenever the base's canonicalization succeeds, `pow(0)`
returns exactly `1/1` (including a base of value zero), and a negative
exponent inverts the base first and then raises to the absolute value of
the exponent.  (When canonicalizing the base fails — e.g. a zero-valued
nested denominator, which `pow$` must reduce first — `pow` propagates that
error instead.) -/
theorem claim_C7 :
    (∀ (x y : Frac) (fuel : ℕ), wfF x = true → reduceApi fuel x = .ok y →
      powApi fuel x 0 = .ok ⟨.num (some 1), .num (some 1)⟩) ∧
    (∀ (f : Frac) (fuel : ℕ) (k : ℤ), k < 0 →
      powF fuel f k = powF fuel (invF f) (-k)) := by
  constructor
  · intro x y fuel hwf hred
    rw [reduceApi, ctor_copy hwf] at hred
    simp only [Bind.bind, Except.bind] at hred
    simp only [powApi, ctor_copy hwf, Bind.bind, Except.bind]
    simp only [powF]
    rw [if_neg (by omega)]
    rw [hred]
    simp only [Bind.bind, Except.bind]
    rfl
  · intro f fuel k hk
    simp only [powF]
    rw [if_pos hk, if_neg (by omega), Int.natAbs_neg]

/-- Witness for the amended C7 at `x = 2/4` (value ≠ 0) and fuel 2. -/
theorem claim_C7_witness :
    wfF ⟨.num (some 2), .num (some 4)⟩ = true ∧
    reduceApi 2 ⟨.num (some 2), .num (some 4)⟩ =
      .ok ⟨.num (some 1), .num (some 2)⟩ ∧
    powApi 2 ⟨.num (some 2), .num (some 4)⟩ 0 =
      .ok ⟨.num (some 1), .num (some 1)⟩ ∧
    powF 2 ⟨.num (some 1), .num (some 2)⟩ (-1) =
      powF 2 (invF ⟨.num (some 1), .num (some 2)⟩) 1 :=
  ⟨by decide, rfl,
    claim_C7.1 ⟨.num (some 2), .num (some 4)⟩ ⟨.num (some 1), .num (some 2)⟩ 2
      (by decide) rfl,
    claim_C7.2 ⟨.num (some 1), .num (some 2)⟩ 2 (-1) (by decide)⟩

/-! ### Zero-valued operands make division throw -/

theorem fval_zero_iff {nsl dsl : Slot} :
    fval ⟨nsl, dsl⟩ = some 0 ↔
      (svalSlot nsl = some 0 ∧ ∃ q, svalSlot dsl = some q ∧ q ≠ 0) := by
  simp only [fval, Frac.toSlot]
  cases hn : svalSlot nsl with
  | none => simp [svalSlot, hn]
  | some a =>
      cases hd : svalSlot dsl with
      | none => simp [svalSlot, hn, hd]
      | some b =>
          by_cases hb : b = 0
          · simp [svalSlot, hn, hd, hb]
          · simp only [svalSlot, hn, hd, if_neg hb, Option.some.injEq]
            constructor
            · intro h
              have ha : a = 0 := by
                have := div_eq_zero_iff.mp h
                tauto
              exact ⟨by rw [ha], b, rfl, hb⟩
            · rintro ⟨ha, q, hq, hq0⟩
              cases hq
              cases ha
              simp

theorem sval_sub_zero {a b : Slot} (h : svalSlot (.sub a b) = some 0) :
    svalSlot a = some 0 ∧ ∃ q, svalSlot b = some q ∧ q ≠ 0 :=
  fval_zero_iff.mp (show fval ⟨a, b⟩ = some 0 from h)

/-- Inverting a well-formed fraction of value zero and reducing the result
always throws `DivisionByZero` at some (sufficient) fuel: the zero
numerator ends up as a zero denominator somewhere down the recursion. -/
theorem zeroVal_inv_reduce :
    ∀ (nsl dsl : Slot), wfF ⟨nsl, dsl⟩ = true → fval ⟨nsl, dsl⟩ = some 0 →
      ∃ m, reduceF (m + 1) (invF ⟨nsl, dsl⟩) = .error .divByZero := by
  intro nsl
  induction nsl with
  | num v =>
      intro dsl hwf hz
      obtain ⟨hn0, q, hdq, hq⟩ := fval_zero_iff.mp hz
      cases v with
      | none => simp [svalSlot] at hn0
      | some z =>
          have hz0 : z = 0 := by
            have : ((z : ℤ) : ℚ) = 0 := by simpa [svalSlot] using hn0
            exact_mod_cast this
          subst hz0
          cases dsl with
          | num dv =>
              cases dv with
              | none => simp [wfF, Frac.toSlot, wfSlot] at hwf
              | some b =>
                  have hb0 : b ≠ 0 := by
                    intro h
                    subst h
                    have : ((0 : ℤ) : ℚ) = q := by simpa [svalSlot] using hdq
                    exact hq (by exact_mod_cast this.symm)
                  exact ⟨0, reduceF_den_zero 0 b hb0⟩
          | sub p2 q2 =>
              exact ⟨3, rfl⟩
  | sub a b iha _ =>
      intro dsl hwf hz
      obtain ⟨hn0, q, hdq, hq0⟩ := fval_zero_iff.mp hz
      obtain ⟨ha0, qb, hbq, hqb0⟩ := sval_sub_zero hn0
      have hwf' : wfF ⟨a, b⟩ = true := by
        simp only [wfF, Frac.toSlot, wfSlot, Bool.and_eq_true] at hwf ⊢
        tauto
      have hfz : fval ⟨a, b⟩ = some 0 := fval_zero_iff.mpr ⟨ha0, qb, hbq, hqb0⟩
      obtain ⟨m', hm'⟩ := iha b hwf' hfz
      have hm'' : reduceF (m' + 1) ⟨b, a⟩ = .error .divByZero := hm'
      refine ⟨m' + 3, ?_⟩
      cases dsl with
      | num dv =>
          cases dv with
          | none =>
              simp only [wfF, Frac.toSlot, wfSlot, Bool.and_eq_true] at hwf
              simp [wfSlot] at hwf
          | some w =>
              have hwsafe : isSafeInt w = true := by
                simp only [wfF, Frac.toSlot, wfSlot, Bool.and_eq_true] at hwf
                tauto
              have h1 : setSlot true (.sNum (toJsNum (some w))) =
                  .ok (.num (some w)) := by
                simp [setSlot, toJsNum, validateNumber_int_num, hwsafe,
                  Except.map]
              have hfrom : fromSlot (Slot.num (some w)) =
                  .ok ⟨.num (some w), .num (some 1)⟩ := by
                simp only [fromSlot, fromNum, Bind.bind, Except.bind, h1]
                rfl
              show reduceF (m' + 2 + 1 + 1) ⟨Slot.num (some w), Slot.sub a b⟩ = _
              simp only [reduceF]
              rw [hfrom]
              simp only [Bind.bind, Except.bind, fromSlot]
              simp only [divDD, mulDD, invF]
              rw [hm'']
              rfl
      | sub p2 q2 =>
          show reduceF (m' + 2 + 1 + 1) ⟨Slot.sub p2 q2, Slot.sub a b⟩ = _
          simp only [reduceF, fromSlot, Bind.bind, Except.bind]
          simp only [divDD, mulDD, invF]
          rw [hm'']
          rfl

/-! ### Claim C4 -/

/-- C4: `new Frac(1, 0)` throws `DivisionByZero`; for every well-formed
fraction `x`, `x.div(0)` throws `DivisionByZero`; and dividing by any
well-formed operand of (exact) value zero — the operands whose reduced
numerator is 0 — throws `DivisionByZero`, returning no result. -/
theorem claim_C4 :
    ctor (.num (.fin (QJ.ofInt 1))) (.num (.fin (QJ.ofInt 0))) = .error .divByZero ∧
    (∀ (x : Frac) (fuel : ℕ), wfF x = true → 3 ≤ fuel →
      divApi fuel x (.num (.fin (QJ.ofInt 0))) .undef = .error .divByZero) ∧
    (∀ (x y : Frac), wfF x = true → wfF y = true → fval y = some 0 →
      ∃ m, divApi m x (.frc y) .undef = .error .divByZero) := by
  refine ⟨rfl, ?_, ?_⟩
  · intro x fuel hwf hf
    obtain ⟨m, rfl⟩ : ∃ m, fuel = m + 2 + 1 := ⟨fuel - 3, by omega⟩
    have ho : ctor (.num (.fin (QJ.ofInt 0))) .undef =
        .ok ⟨.num (some 0), .num (some 1)⟩ := rfl
    have hdd : divDD (m + 2 + 1) x ⟨.num (some 0), .num (some 1)⟩ =
        .error .divByZero := by
      simp only [divDD, mulDD, invF]
      rw [reduceF_den_zero m 1 one_ne_zero]
      rfl
    simp only [divApi, Bind.bind, Except.bind, ctor_copy hwf, ho, hdd]
  · intro x y hwx hwy hz
    obtain ⟨ysl, ydl⟩ := y
    obtain ⟨m, hm⟩ := zeroVal_inv_reduce ysl ydl hwy hz
    refine ⟨m + 2 + 1, ?_⟩
    have hdd : divDD (m + 2 + 1) x ⟨ysl, ydl⟩ = .error .divByZero := by
      simp only [divDD, mulDD]
      rw [hm]
      rfl
    simp only [divApi, Bind.bind, Except.bind, ctor_copy hwx,
      ctor_copy hwy, hdd]

/-- Witness for C4 at `x = 1/2` and zero operands `0` and `0/5`. -/
theorem claim_C4_witness :
    wfF ⟨.num (some 1), .num (some 2)⟩ = true ∧
    divApi 3 ⟨.num (some 1), .num (some 2)⟩ (.num (.fin (QJ.ofInt 0))) .undef =
      .error .divByZero ∧
    fval ⟨.num (some 0), .num (some 5)⟩ = some 0 ∧
    (∃ m, divApi m ⟨.num (some 1), .num (some 2)⟩
      (.frc ⟨.num (some 0), .num (some 5)⟩) .undef = .error .divByZero) := by
  have hv : fval ⟨.num (some 0), .num (some 5)⟩ = some 0 := by
    simp [fval, Frac.toSlot, svalSlot]
  exact ⟨by decide,
    claim_C4.2.1 ⟨.num (some 1), .num (some 2)⟩ 3 (by decide) (by omega),
    hv,
    claim_C4.2.2 ⟨.num (some 1), .num (some 2)⟩ ⟨.num (some 0), .num (some 5)⟩
      (by decide) (by decide) hv⟩

/-! ### Well-formedness of everything the setters build -/

theorem setSlot_num_ok {b : Bool} {x : JsNum} {s : Slot}
    (h : setSlot b (.sNum x) = .ok s) :
    ∃ z, s = .num (some z) ∧ isSafeInt z = true ∧ (b = false → z ≠ 0) := by
  simp only [setSlot] at h
  rw [emap_ok] at h
  obtain ⟨z, hz, hs⟩ := h
  exact ⟨z, hs.symm, validateNumber_ok_safe hz, fun hb => by
    subst hb
    exact validateNumber_den_ne hz⟩

theorem wfF_mk {a b : Slot} :
    wfF ⟨a, b⟩ = (wfSlot a && wfSlot b && !(b == Slot.num (some 0))) := rfl

theorem fromPair_wf {nv dv : SetVal} {f : Frac}
    (hn : ∀ g, nv = .sFrac g → wfF g = true)
    (hd : ∀ g, dv = .sFrac g → wfF g = true)
    (h : fromPair nv dv = .ok f) : wfF f = true := by
  simp only [fromPair] at h
  rw [ebind_ok] at h
  obtain ⟨ns, hns, h⟩ := h
  rw [ebind_ok] at h
  obtain ⟨ds, hds, h⟩ := h
  cases h
  have hwn : wfSlot ns = true := by
    cases nv with
    | sNum x =>
        obtain ⟨z, rfl, hz, _⟩ := setSlot_num_ok hns
        simpa [wfSlot] using hz
    | sFrac g =>
        simp only [setSlot] at hns
        cases hns
        exact hn g rfl
  have hwd : wfSlot ds = true ∧ ds ≠ Slot.num (some 0) := by
    cases dv with
    | sNum x =>
        obtain ⟨z, rfl, hz, hz0⟩ := setSlot_num_ok hds
        refine ⟨by simpa [wfSlot] using hz, ?_⟩
        intro hcon
        exact (hz0 rfl) (by simpa using hcon)
    | sFrac g =>
        simp only [setSlot] at hds
        cases hds
        exact ⟨hd g rfl, by simp⟩
  rw [wfF_mk]
  simp [hwn, hwd.1, hwd.2]

/-- Every fraction the parser returns is well-formed: all stored literals
passed the constructor checks (floored safe integers, nonzero integer
denominators). -/
theorem parseP_wf :
    ∀ (fuel : ℕ) (l : List Char) (f : Frac) (rest : List Char),
      parseP fuel l = .ok (f, rest) → wfF f = true := by
  intro fuel
  induction fuel with
  | zero =>
      intro l f rest h
      simp [parseP] at h
  | succ n ih =>
      intro l f rest h
      simp only [parseP] at h
      split at h
      · exact absurd h (by simp)
      · rw [ebind_ok] at h
        obtain ⟨nl3, hn, h⟩ := h
        split at h
        · exact absurd h (by simp)
        · rw [ebind_ok] at h
          obtain ⟨dl6, hd, h⟩ := h
          split at h
          · exact absurd h (by simp)
          · rw [ebind_ok] at h
            obtain ⟨f', hf', h⟩ := h
            cases h
            have hnside : ∀ g, nl3.1 = .sFrac g → wfF g = true := by
              rcases htok : getToken (eatWs (eatWs l).tail) with _ | _ | _ | _ | _ <;>
                rw [htok] at hn
              · simp at hn
              · cases hn
                intro g hg
                simp at hg
              · rw [ebind_ok] at hn
                obtain ⟨p, hp, hn⟩ := hn
                cases hn
                intro g hg
                obtain ⟨p1, p2⟩ := p
                simp only [SetVal.sFrac.injEq] at hg
                cases hg
                exact ih _ _ _ hp
              · simp at hn
              · simp at hn
            have hdside : ∀ g, dl6.1 = .sFrac g → wfF g = true := by
              rcases htok : getToken (eatWs (eatWs nl3.2).tail) with _ | _ | _ | _ | _ <;>
                rw [htok] at hd
              · simp at hd
              · cases hd
                intro g hg
                simp at hg
              · rw [ebind_ok] at hd
                obtain ⟨p, hp, hd⟩ := hd
                cases hd
                intro g hg
                obtain ⟨p1, p2⟩ := p
                simp only [SetVal.sFrac.injEq] at hg
                cases hg
                exact ih _ _ _ hp
              · simp at hd
              · simp at hd
            exact fromPair_wf hnside hdside hf'

/-- `Frac.parse` only returns well-formed fractions. -/
theorem parseApi_wf {s : List Char} {f : Frac} (h : parseApi s = .ok f) :
    wfF f = true := by
  simp only [parseApi] at h
  cases hp : parseP (s.length + 1) s with
  | error e =>
      rw [hp] at h
      simp at h
  | ok pr =>
      rw [hp] at h
      obtain ⟨f', rest⟩ := pr
      simp only at h
      by_cases hr : rest = []
      · rw [if_pos hr] at h
        cases h
        exact parseP_wf _ _ _ _ hp
      · rw [if_neg hr] at h
        exact absurd h (by simp)

/-- Every slot a deep copy produces is well-formed (and a denominator slot
is never the integer zero). -/
theorem copySlot_wf :
    ∀ (s : Slot) (b : Bool) (s' : Slot), copySlot b s = .ok s' →
      wfSlot s' = true ∧ (b = false → s' ≠ .num (some 0)) := by
  intro s
  induction s with
  | num v =>
      intro b s' h
      simp only [copySlot] at h
      rw [emap_ok] at h
      obtain ⟨z, hz, hs⟩ := h
      subst hs
      refine ⟨by simpa [wfSlot] using validateNumber_ok_safe hz, ?_⟩
      intro hb
      subst hb
      have := validateNumber_den_ne hz
      simp [this]
  | sub a b2 iha ihb =>
      intro b s' h
      simp only [copySlot] at h
      rw [ebind_ok] at h
      obtain ⟨n', hn', h⟩ := h
      rw [ebind_ok] at h
      obtain ⟨d', hd', h⟩ := h
      cases h
      have h1 := iha true n' hn'
      have h2 := ihb false d' hd'
      refine ⟨?_, by simp⟩
      simp only [wfSlot, Bool.and_eq_true, Bool.not_eq_true']
      refine ⟨⟨h1.1, h2.1⟩, ?_⟩
      have := h2.2 rfl
      simpa using this

/-- Every fraction the deep copy produces is well-formed. -/
theorem copyFrac_wf {f g : Frac} (h : copyFrac f = .ok g) : wfF g = true := by
  simp only [copyFrac] at h
  rw [ebind_ok] at h
  obtain ⟨n', hn', h⟩ := h
  rw [ebind_ok] at h
  obtain ⟨d', hd', h⟩ := h
  cases h
  rw [wfF_mk]
  have h1 := copySlot_wf _ _ _ hn'
  have h2 := copySlot_wf _ _ _ hd'
  have := h2.2 rfl
  simp [h1.1, h2.1, this]

/-- Every fraction the public constructor returns is well-formed. -/
theorem ctor_wf {n : NumSrc} {d : DenSrc} {f : Frac}
    (h : ctor n d = .ok f) : wfF f = true := by
  simp only [ctor] at h
  rw [ebind_ok] at h
  obtain ⟨nv, hnv, h⟩ := h
  rw [ebind_ok] at h
  obtain ⟨dv, hdv, h⟩ := h
  have hnv_wf : ∀ g, nv = some (.inr g) → wfF g = true := by
    intro g hg
    subst hg
    cases n with
    | undef => simp [validateArgsN] at hnv
    | num x =>
        simp only [validateArgsN] at hnv
        rw [emap_ok] at hnv
        obtain ⟨z, _, hz⟩ := hnv
        simp at hz
    | str s =>
        simp only [validateArgsN] at hnv
        rw [emap_ok] at hnv
        obtain ⟨g', hg', heq⟩ := hnv
        simp only [Option.some.injEq, Sum.inr.injEq] at heq
        cases heq
        exact parseApi_wf hg'
    | frc g' =>
        simp only [validateArgsN] at hnv
        rw [emap_ok] at hnv
        obtain ⟨g'', hg'', heq⟩ := hnv
        simp only [Option.some.injEq, Sum.inr.injEq] at heq
        cases heq
        exact copyFrac_wf hg''
  have hnv_num : ∀ z, nv = some (.inl z) → isSafeInt z = true := by
    intro z hz
    subst hz
    cases n with
    | undef => simp [validateArgsN] at hnv
    | num x =>
        simp only [validateArgsN] at hnv
        rw [emap_ok] at hnv
        obtain ⟨z', hz', heq⟩ := hnv
        simp only [Option.some.injEq, Sum.inl.injEq] at heq
        cases heq
        exact validateNumber_ok_safe hz'
    | str s =>
        simp only [validateArgsN] at hnv
        rw [emap_ok] at hnv
        obtain ⟨g', _, heq⟩ := hnv
        simp at heq
    | frc g' =>
        simp only [validateArgsN] at hnv
        rw [emap_ok] at hnv
        obtain ⟨g'', _, heq⟩ := hnv
        simp at heq
  have hdv_wf : ∀ g, dv = some (.inr g) → wfF g = true := by
    intro g hg
    subst hg
    cases d with
    | undef => simp [validateArgsD] at hdv
    | num x =>
        simp only [validateArgsD] at hdv
        rw [emap_ok] at hdv
        obtain ⟨z, _, hz⟩ := hdv
        simp at hz
    | frc g' =>
        simp only [validateArgsD] at hdv
        rw [emap_ok] at hdv
        obtain ⟨g'', hg'', heq⟩ := hdv
        simp only [Option.some.injEq, Sum.inr.injEq] at heq
        cases heq
        exact copyFrac_wf hg''
  have hdv_num : ∀ z, dv = some (.inl z) → isSafeInt z = true ∧ z ≠ 0 := by
    intro z hz
    subst hz
    cases d with
    | undef => simp [validateArgsD] at hdv
    | num x =>
        simp only [validateArgsD] at hdv
        rw [emap_ok] at hdv
        obtain ⟨z', hz', heq⟩ := hdv
        simp only [Option.some.injEq, Sum.inl.injEq] at heq
        cases heq
        exact ⟨validateNumber_ok_safe hz', validateNumber_den_ne hz'⟩
    | frc g' =>
        simp only [validateArgsD] at hdv
        rw [emap_ok] at hdv
        obtain ⟨g'', _, heq⟩ := hdv
        simp at heq
  -- now the constructor's branches
  cases nv with
  | none =>
      simp only at h
      cases h
      decide
  | some nn =>
      cases dv with
      | some dd =>
          simp only at h
          cases h
          rw [wfF_mk]
          have hwn : wfSlot (ndSlot nn) = true := by
            cases nn with
            | inl z => simpa [ndSlot, wfSlot] using hnv_num z rfl
            | inr g => exact hnv_wf g rfl
          have hwd : wfSlot (ndSlot dd) = true ∧ ndSlot dd ≠ Slot.num (some 0) := by
            cases dd with
            | inl z =>
                obtain ⟨hz, hz0⟩ := hdv_num z rfl
                exact ⟨by simpa [ndSlot, wfSlot] using hz, by simp [ndSlot, hz0]⟩
            | inr g => exact ⟨hdv_wf g rfl, by simp [ndSlot, Frac.toSlot]⟩
          simp [hwn, hwd.1, hwd.2]
      | none =>
          cases nn with
          | inl z =>
              simp only at h
              cases h
              rw [wfF_mk]
              have := hnv_num z rfl
              simp only [wfSlot, this, Bool.and_eq_true, Bool.not_eq_true']
              exact ⟨⟨trivial, by decide⟩, by decide⟩
          | inr g =>
              simp only at h
              cases h
              exact hnv_wf _ rfl

/-- Well-formedness implies the no-zero-integer-denominator invariant. -/
theorem wfSlot_nzd : ∀ s, wfSlot s = true → nzdSlot s = true := by
  intro s
  induction s with
  | num v => intro _; rfl
  | sub a b iha ihb =>
      intro h
      simp only [wfSlot, Bool.and_eq_true, Bool.not_eq_true'] at h
      simp only [nzdSlot, Bool.and_eq_true, Bool.not_eq_true']
      exact ⟨⟨iha h.1.1, ihb h.1.2⟩, h.2⟩

theorem wfF_nzd {f : Frac} (h : wfF f = true) : nzdF f = true :=
  wfSlot_nzd _ h

/-! ### Flatness of the public operation results -/

theorem addDD_flat {fuel : ℕ} {a b r o : Frac}
    (h : addDD fuel a b = .ok (r, o)) : flatPos r := by
  simp only [addDD] at h
  rw [ebind_ok] at h
  obtain ⟨l, _, h⟩ := h
  rw [ebind_ok] at h
  obtain ⟨rr, _, h⟩ := h
  rw [ebind_ok] at h
  obtain ⟨n', _, h⟩ := h
  rw [ebind_ok] at h
  obtain ⟨d', _, h⟩ := h
  rw [ebind_ok] at h
  obtain ⟨res, hres, h⟩ := h
  cases h
  exact reduceF_flat hres

theorem subDD_flat {fuel : ℕ} {a b r o : Frac}
    (h : subDD fuel a b = .ok (r, o)) : flatPos r := by
  simp only [subDD] at h
  rw [ebind_ok] at h
  obtain ⟨rr, _, h⟩ := h
  rw [ebind_ok] at h
  obtain ⟨oo, _, h⟩ := h
  rw [ebind_ok] at h
  obtain ⟨⟨res, od⟩, hres, h⟩ := h
  cases h
  exact addDD_flat hres

theorem powF_nzd {fuel : ℕ} {x r : Frac} {p : ℤ}
    (h : powF fuel x p = .ok r) : nzdF r = true := by
  simp only [powF] at h
  rw [ebind_ok] at h
  obtain ⟨fr, _, h⟩ := h
  rw [ebind_ok] at h
  obtain ⟨n', _, h⟩ := h
  rw [ebind_ok] at h
  obtain ⟨d', hd', h⟩ := h
  cases h
  have := validateNumber_den_ne hd'
  simp [nzdF, Frac.toSlot, nzdSlot, this]

/-! ### Claim C1 (corrected) -/

/-- Counterexample to C1 as stated: `new Frac(0, 5)` is constructible, yet
its `inv()` — a public operation — holds the plain integer `0` in its
denominator slot: `inv$` swaps the slots without any validation. -/
theorem claim_C1_cex :
    ctor (.num (.fin (QJ.ofInt 0))) (.num (.fin (QJ.ofInt 5))) =
      .ok ⟨.num (some 0), .num (some 5)⟩ ∧
    invApi ⟨.num (some 0), .num (some 5)⟩ =
      .ok ⟨.num (some 5), .num (some 0)⟩ ∧
    nzdF ⟨.num (some 5), .num (some 0)⟩ = false := ⟨rfl, rfl, rfl⟩

/-- C1 (amended): construction (from numbers, strings, values), parsing,
and every canonical-result public operation (`add`, `sub`, `mul`, `div`,
`pow`, `reduce`) never produce a plain integer `0` in a denominator slot
at any nesting level — but `inv`/`inv$`, which swap the slots without
validation, yield a zero integer denominator exactly when the numerator
slot was the plain integer `0`. -/
theorem claim_C1 :
    (∀ (n : NumSrc) (d : DenSrc) (f : Frac), ctor n d = .ok f → nzdF f = true) ∧
    (∀ (s : List Char) (f : Frac), parseApi s = .ok f → nzdF f = true) ∧
    (∀ (fuel : ℕ) (x : Frac) (nArg : NumSrc) (dArg : DenSrc) (r : Frac),
      addApi fuel x nArg dArg = .ok r → nzdF r = true) ∧
    (∀ (fuel : ℕ) (x : Frac) (nArg : NumSrc) (dArg : DenSrc) (r : Frac),
      subApi fuel x nArg dArg = .ok r → nzdF r = true) ∧
    (∀ (fuel : ℕ) (x : Frac) (nArg : NumSrc) (dArg : DenSrc) (r : Frac),
      mulApi fuel x nArg dArg = .ok r → nzdF r = true) ∧
    (∀ (fuel : ℕ) (x : Frac) (nArg : NumSrc) (dArg : DenSrc) (r : Frac),
      divApi fuel x nArg dArg = .ok r → nzdF r = true) ∧
    (∀ (fuel : ℕ) (x : Frac) (p : ℤ) (r : Frac),
      powApi fuel x p = .ok r → nzdF r = true) ∧
    (∀ (fuel : ℕ) (x r : Frac), reduceApi fuel x = .ok r → nzdF r = true) ∧
    (∀ (x r : Frac), wfF x = true → invApi x = .ok r →
      (nzdF r = false ↔ x.n = .num (some 0))) := by
  have hadd : ∀ (fuel : ℕ) (x : Frac) (nArg : NumSrc) (dArg : DenSrc) (r : Frac),
      addApi fuel x nArg dArg = .ok r → nzdF r = true := by
    intro fuel x nA dA r h
    simp only [addApi] at h
    rw [ebind_ok] at h
    obtain ⟨xc, _, h⟩ := h
    rw [ebind_ok] at h
    obtain ⟨o, _, h⟩ := h
    rw [ebind_ok] at h
    obtain ⟨⟨res, od⟩, hres, h⟩ := h
    cases h
    exact flatPos_nzd (addDD_flat hres)
  refine ⟨?_, ?_, hadd, ?_, ?_, ?_, ?_, ?_, ?_⟩
  · intro n d f h
    exact wfF_nzd (ctor_wf h)
  · intro s f h
    exact wfF_nzd (parseApi_wf h)
  · intro fuel x nA dA r h
    simp only [subApi] at h
    rw [ebind_ok] at h
    obtain ⟨xc, _, h⟩ := h
    rw [ebind_ok] at h
    obtain ⟨o, _, h⟩ := h
    rw [ebind_ok] at h
    obtain ⟨⟨res, od⟩, hres, h⟩ := h
    cases h
    exact flatPos_nzd (subDD_flat hres)
  · intro fuel x nA dA r h
    simp only [mulApi] at h
    rw [ebind_ok] at h
    obtain ⟨xc, _, h⟩ := h
    rw [ebind_ok] at h
    obtain ⟨o, _, h⟩ := h
    rw [ebind_ok] at h
    obtain ⟨⟨res, od⟩, hres, h⟩ := h
    cases h
    exact flatPos_nzd ((engineFlat fuel).2.2.1 _ _ _ _ hres).1
  · intro fuel x nA dA r h
    simp only [divApi] at h
    rw [ebind_ok] at h
    obtain ⟨xc, _, h⟩ := h
    rw [ebind_ok] at h
    obtain ⟨o, _, h⟩ := h
    rw [ebind_ok] at h
    obtain ⟨⟨res, od⟩, hres, h⟩ := h
    cases h
    exact flatPos_nzd ((engineFlat fuel).2.1 _ _ _ _ hres).1
  · intro fuel x p r h
    simp only [powApi] at h
    rw [ebind_ok] at h
    obtain ⟨xc, _, h⟩ := h
    exact powF_nzd h
  · intro fuel x r h
    simp only [reduceApi] at h
    rw [ebind_ok] at h
    obtain ⟨xc, _, h⟩ := h
    exact flatPos_nzd (reduceF_flat h)
  · intro x r hwf h
    simp only [invApi] at h
    rw [ebind_ok] at h
    obtain ⟨xc, hxc, h⟩ := h
    rw [ctor_copy hwf] at hxc
    cases hxc
    cases h
    have hn : nzdSlot x.n = true ∧ nzdSlot x.d = true := by
      have := wfF_nzd hwf
      simp only [nzdF, Frac.toSlot, nzdSlot, Bool.and_eq_true] at this
      exact ⟨this.1.1, this.1.2⟩
    simp only [invF, nzdF, Frac.toSlot, nzdSlot, hn.1, hn.2, Bool.and_true,
      true_and, Bool.and_eq_true, Bool.not_eq_true', Bool.not_eq_false']
    constructor
    · intro hx
      simpa using hx
    · intro hx
      simp [hx]

/-- Witness for the C1 conjuncts at concrete inputs. -/
theorem claim_C1_witness :
    nzdF ⟨.num (some 1), .num (some 2)⟩ = true ∧
    (nzdF ⟨.num (some 5), .num (some 0)⟩ = false ↔
      (⟨.num (some 0), .num (some 5)⟩ : Frac).n = .num (some 0)) :=
  ⟨claim_C1.1 (.num (.fin (QJ.ofInt 1))) (.num (.fin (QJ.ofInt 2)))
      ⟨.num (some 1), .num (some 2)⟩ rfl,
    claim_C1.2.2.2.2.2.2.2.2 ⟨.num (some 0), .num (some 5)⟩
      ⟨.num (some 5), .num (some 0)⟩ (by decide) rfl⟩

/-! ### Claim C2 (corrected) -/

/-- Counterexample to C2 as stated: the literal `1.5` is not an optionally
signed digit run, its value is not a safe integer, yet
`parse("(1.5 / 2)")` silently produces `(1 / 2)` — the run is read as an
arbitrary non-delimiter string, converted by JS `ToNumber`, and floored by
the setter. -/
theorem claim_C2_cex :
    parseApi "(1.5 / 2)".data = .ok ⟨.num (some 1), .num (some 2)⟩ := rfl

/-- C2 (amended): a literal is a maximal run of non-delimiter characters,
converted by JS numeric conversion and then subjected to the same checks
as constructor integers: every fraction the parser returns stores only
floored safe integers with no zero integer denominator, and non-finite /
unsafe / zero-denominator literal values fail with the corresponding
constructor error rather than producing a value. -/
theorem claim_C2 :
    (∀ (fuel : ℕ) (l : List Char) (f : Frac) (rest : List Char),
      parseP fuel l = .ok (f, rest) → wfF f = true) ∧
    (∀ (s : List Char) (f : Frac), parseApi s = .ok f → wfF f = true) ∧
    parseApi "(99999999999999999999 / 2)".data = .error .numOverflow ∧
    parseApi "(2 / 99999999999999999999)".data = .error .denOverflow ∧
    parseApi "(abc / 2)".data = .error .numOverflow ∧
    parseApi "(Infinity / 2)".data = .error .numOverflow ∧
    parseApi "(1 / 0)".data = .error .divByZero ∧
    parseApi "(1 / 0.4)".data = .error .divByZero :=
  ⟨parseP_wf, fun _ _ => parseApi_wf, rfl, rfl, rfl, rfl, rfl, rfl⟩

/-- Witness for the C2 conjuncts at a concrete parse. -/
theorem claim_C2_witness :
    wfF ⟨.num (some 1), .num (some 2)⟩ = true :=
  claim_C2.1 8 "(1 / 2)".data ⟨.num (some 1), .num (some 2)⟩ [] rfl

/-! ### Facts about spans, digit strings and integer literals -/

theorem span_cons (p : Char → Bool) (c : Char) (t : List Char) :
    List.span p (c :: t) =
      if p c then ((c :: (List.span p t).1), (List.span p t).2)
      else ([], c :: t) := by
  by_cases hp : p c <;>
    simp [List.span_eq_take_drop, List.takeWhile_cons, List.dropWhile_cons, hp]

/-- A span over `xs ++ ys` where everything in `xs` satisfies `p` and the
head of `ys` (if any) does not. -/
theorem span_append_all (p : Char → Bool) :
    ∀ (xs ys : List Char), (∀ c ∈ xs, p c = true) →
      (match ys with | [] => True | c :: _ => p c = false) →
      List.span p (xs ++ ys) = (xs, ys) := by
  intro xs
  induction xs with
  | nil =>
      intro ys _ hy
      cases ys with
      | nil => rfl
      | cons c t =>
          simp only [List.nil_append]
          rw [span_cons]
          simp only at hy
          simp [hy]
  | cons x xs' ih =>
      intro ys hx hy
      have hpx : p x = true := hx x (by simp)
      simp only [List.cons_append]
      rw [span_cons, if_pos hpx, ih ys (fun c hc => hx c (by simp [hc])) hy]

theorem digitChar_spec (d : ℕ) (h : d < 10) :
    (Nat.digitChar d).isDigit = true ∧
      getTokenC (Nat.digitChar d) = Token.numTok ∧
      (Nat.digitChar d).toNat - 48 = d := by
  interval_cases d <;> exact ⟨by decide, by decide, by decide⟩

theorem isDigit_not_special {c : Char} (h : c.isDigit = true) :
    c ≠ 'x' ∧ c ≠ 'X' ∧ c ≠ 'o' ∧ c ≠ 'O' ∧ c ≠ 'b' ∧ c ≠ 'B' ∧
      c ≠ '-' ∧ c ≠ '+' ∧ c ≠ '.' ∧ c ≠ 'e' ∧ c ≠ 'E' ∧ c ≠ 'I' := by
  refine ⟨?_, ?_, ?_, ?_, ?_, ?_, ?_, ?_, ?_, ?_, ?_, ?_⟩ <;>
    · intro hc
      subst hc
      simp [Char.isDigit] at h

theorem natToStrGo_spec :
    ∀ (fuel n : ℕ), n < fuel →
      natToStrGo fuel n ≠ [] ∧
      (∀ c ∈ natToStrGo fuel n, c.isDigit = true ∧
        getTokenC c = Token.numTok) ∧
      digitsVal (natToStrGo fuel n) = n := by
  intro fuel
  induction fuel with
  | zero => omega
  | succ k ih =>
      intro n hn
      simp only [natToStrGo]
      by_cases h10 : n < 10
      · rw [if_pos h10]
        obtain ⟨hd1, hd2, hd3⟩ := digitChar_spec n h10
        refine ⟨by simp, ?_, ?_⟩
        · intro c hc
          simp only [List.mem_singleton] at hc
          subst hc
          exact ⟨hd1, hd2⟩
        · simp [digitsVal, hd3]
      · rw [if_neg h10]
        have hlt : n / 10 < n := Nat.div_lt_self (by omega) (by omega)
        have hdiv : n / 10 < k := by omega
        obtain ⟨hne, hall, hval⟩ := ih (n / 10) hdiv
        obtain ⟨hd1, hd2, hd3⟩ := digitChar_spec (n % 10) (Nat.mod_lt _ (by omega))
        refine ⟨by simp, ?_, ?_⟩
        · intro c hc
          rw [List.mem_append] at hc
          rcases hc with hc | hc
          · exact hall c hc
          · simp only [List.mem_singleton] at hc
            subst hc
            exact ⟨hd1, hd2⟩
        · simp only [digitsVal, List.foldl_append, List.foldl]
          simp only [digitsVal] at hval
          rw [hval, hd3]
          omega

theorem natToStr_spec (n : ℕ) :
    natToStr n ≠ [] ∧
    (∀ c ∈ natToStr n, c.isDigit = true ∧ getTokenC c = Token.numTok) ∧
    digitsVal (natToStr n) = n :=
  natToStrGo_spec (n + 1) n (by omega)

/-- A string of decimal digits is not a `0x`/`0o`/`0b` literal. -/
theorem nonDecimalVal_digits :
    ∀ (l : List Char), (∀ c ∈ l, c.isDigit = true) → nonDecimalVal l = none := by
  intro l h
  match l with
  | [] => rfl
  | [c] => rfl
  | c0 :: c :: rest =>
      have hc := isDigit_not_special (h c (by simp))
      simp only [nonDecimalVal]
      by_cases h0 : c0 = '0'
      · rw [if_neg (by simp [h0])]
        by_cases hr : rest = []
        · rw [if_pos hr]
        · rw [if_neg hr]
          rw [if_neg (by tauto), if_neg (by tauto), if_neg (by tauto)]
      · rw [if_pos (by simp [h0])]

/-- A (sign-free) string of decimal digits is not `"Infinity"`. -/
theorem digits_ne_Infinity {l : List Char} (hne : l ≠ [])
    (h : ∀ c ∈ l, c.isDigit = true) : l ≠ "Infinity".data := by
  intro heq
  cases l with
  | nil => exact hne rfl
  | cons c t =>
      have hcI := (isDigit_not_special (h c (by simp))).2.2.2.2.2.2.2.2.2.2.2
      have hc : c = 'I' := by
        have h2 : c :: t = 'I' :: "nfinity".data := heq
        exact (List.cons.injEq _ _ _ _ ▸ h2).1
      exact hcI hc

/-- `unsignedDec` of an all-digit string: the whole string is the integer
part, no fraction, no exponent. -/
theorem unsignedDec_digits {l : List Char} (hne : l ≠ [])
    (h : ∀ c ∈ l, c.isDigit = true) :
    unsignedDec l = some (QJ.mulPow10 (QJ.ofInt (digitsVal l : ℤ)) 0) := by
  have hspan : List.span Char.isDigit l = (l, []) := by
    have := span_append_all Char.isDigit l [] h trivial
    simpa using this
  simp only [unsignedDec, hspan]
  rw [if_neg hne]
  rw [if_neg (by simp)]
  rfl

theorem mulPow10_zero (n : ℤ) :
    QJ.mulPow10 (QJ.ofInt n) 0 = ⟨n * 1, 1⟩ := by
  simp [QJ.mulPow10, QJ.ofInt]

/-- Conversion of a serialized integer back through JS `ToNumber`. -/
theorem jsToNumber_intStr (z : ℤ) :
    jsToNumber (jsNumToStr (some z)) = .fin ⟨z, 1⟩ := by
  obtain ⟨hne, hall, hval⟩ := natToStr_spec z.natAbs
  have hdig : ∀ c ∈ natToStr z.natAbs, Char.isDigit c = true :=
    fun c hc => (hall c hc).1
  obtain ⟨c, t, hct⟩ : ∃ c t, natToStr z.natAbs = c :: t := by
    cases hh : natToStr z.natAbs with
    | nil => exact absurd hh hne
    | cons c t => exact ⟨c, t, rfl⟩
  have hcdig := isDigit_not_special (hdig c (by rw [hct]; simp))
  have hInf : natToStr z.natAbs ≠ "Infinity".data := digits_ne_Infinity hne hdig
  have hInfL : natToStr z.natAbs ≠ ['I', 'n', 'f', 'i', 'n', 'i', 't', 'y'] :=
    fun h => hInf (h.trans (by decide))
  have huns := unsignedDec_digits hne hdig
  by_cases hzneg : z < 0
  · have hstr : jsNumToStr (some z) = '-' :: natToStr z.natAbs := by
      simp [jsNumToStr, hzneg]
    have hnd : nonDecimalVal ('-' :: natToStr z.natAbs) = none := by
      rw [hct]
      simp only [nonDecimalVal]
      rw [if_pos (by decide)]
    rw [hstr]
    simp [jsToNumber, hnd, huns, hInf, hInfL, mulPow10_zero, QJ.neg, hval]
    rw [abs_of_neg hzneg, neg_neg]
  · have hstr : jsNumToStr (some z) = natToStr z.natAbs := by
      simp [jsNumToStr, hzneg]
    have hm : ((natToStr z.natAbs).head? == some '-') = false := by
      rw [hct]
      simp only [List.head?_cons]
      have := hcdig.2.2.2.2.2.2.1
      simp [this]
    have hp2 : ((natToStr z.natAbs).head? == some '+') = false := by
      rw [hct]
      simp only [List.head?_cons]
      have := hcdig.2.2.2.2.2.2.2.1
      simp [this]
    rw [hstr]
    simp [jsToNumber, nonDecimalVal_digits _ hdig, huns, hm, hp2, hne,
      hInf, hInfL, mulPow10_zero, hval]
    omega

/-- Conversion of a serialized integer back through JS `ToNumber` and the
validating setter returns the integer itself. -/
theorem validate_intStr (z : ℤ) (b : Bool) (hz : isSafeInt z = true)
    (hz0 : b = false → z ≠ 0) :
    validateNumber (jsToNumber (jsNumToStr (some z))) b = .ok z := by
  rw [jsToNumber_intStr]
  have hfl : QJ.floor ⟨z, 1⟩ = z := by
    simp [QJ.floor, Int.fdiv_one]
  simp only [validateNumber, hfl]
  have hb0 : (!b && z == 0) = false := by
    cases b with
    | false =>
        have := hz0 rfl
        simp [this]
    | true => simp
  rw [hb0]
  simp [hz]

/-- A whitespace head character is dropped by `eatWhitespace`. -/
theorem eatWs_cons_ws {c : Char} (h : getTokenC c = Token.ws) (l : List Char) :
    eatWs (c :: l) = eatWs l := by
  simp [eatWs, List.dropWhile_cons, h]

/-- A non-whitespace head character stops `eatWhitespace`. -/
theorem eatWs_cons_nws {c : Char} (h : getTokenC c ≠ Token.ws) (l : List Char) :
    eatWs (c :: l) = c :: l := by
  simp only [eatWs, List.dropWhile_cons]
  rw [if_neg (by simp [h])]

/-- `eatWhitespace` is idempotent. -/
theorem eatWs_idem : ∀ l : List Char, eatWs (eatWs l) = eatWs l := by
  intro l
  induction l with
  | nil => rfl
  | cons c t ih =>
      by_cases h : getTokenC c = Token.ws
      · rw [eatWs_cons_ws h, ih]
      · rw [eatWs_cons_nws h, eatWs_cons_nws h]

/-- The serialization of a stored integer is a nonempty run of
`NUMBER`-class characters. -/
theorem jsNumToStr_numTok (z : ℤ) :
    jsNumToStr (some z) ≠ [] ∧
      ∀ c ∈ jsNumToStr (some z), getTokenC c = Token.numTok := by
  obtain ⟨hne, hall, _⟩ := natToStr_spec z.natAbs
  by_cases hz : z < 0
  · refine ⟨by simp [jsNumToStr, hz], ?_⟩
    intro c hc
    simp only [jsNumToStr, if_pos hz, List.mem_cons] at hc
    rcases hc with hc | hc
    · subst hc
      decide
    · exact (hall c hc).2
  · refine ⟨by simp [jsNumToStr, hz, hne], ?_⟩
    intro c hc
    simp only [jsNumToStr, if_neg hz] at hc
    exact (hall c hc).2

/-- Serializations are nonempty, start with a non-whitespace character
(so a leading `eatWhitespace` is a no-op), and their first token class is
`NUMBER` for a stored number and `(` for a nested fraction. -/
theorem serSlot_hd (s : Slot) (hwf : wfSlot s = true) (r : List Char) :
    eatWs (serSlot s ++ r) = serSlot s ++ r ∧
      getToken (serSlot s ++ r) =
        (match s with | .num _ => Token.numTok | .sub _ _ => Token.lparen) := by
  match s with
  | .num none => simp [wfSlot] at hwf
  | .num (some z) =>
      obtain ⟨hne, hall⟩ := jsNumToStr_numTok z
      obtain ⟨c, t, hct⟩ : ∃ c t, jsNumToStr (some z) = c :: t := by
        cases hh : jsNumToStr (some z) with
        | nil => exact absurd hh hne
        | cons c t => exact ⟨c, t, rfl⟩
      have hc : getTokenC c = Token.numTok := hall c (by rw [hct]; simp)
      simp only [serSlot, hct, List.cons_append]
      exact ⟨eatWs_cons_nws (by simp [hc]) _, by simp [getToken, hc]⟩
  | .sub a b =>
      simp only [serSlot, List.cons_append]
      exact ⟨eatWs_cons_nws (by decide) _, by simp [getToken]; decide⟩

/-- `Parser.getNumber` on a serialized stored integer followed by a
non-`NUMBER` continuation returns exactly the serialized digits. -/
theorem numRun_ser (z : ℤ) (r : List Char) (hr : getToken r ≠ Token.numTok) :
    numRun (jsNumToStr (some z) ++ r) = (jsNumToStr (some z), r) := by
  obtain ⟨_, hall⟩ := jsNumToStr_numTok z
  have hp : ∀ c ∈ jsNumToStr (some z), (getTokenC c == Token.numTok) = true :=
    fun c hc => by simp [hall c hc]
  refine span_append_all _ _ _ hp ?_
  cases r with
  | nil => trivial
  | cons c t =>
      simp only [getToken] at hr
      simp [hr]

/-- Assigning the reparsed serialization of a stored safe integer through a
setter restores the slot. -/
theorem setSlot_ser (z : ℤ) (pos : Bool) (hz : isSafeInt z = true)
    (h0 : pos = false → z ≠ 0) :
    setSlot pos (.sNum (jsToNumber (jsNumToStr (some z)))) =
      .ok (.num (some z)) := by
  simp [setSlot, validate_intStr z pos hz h0, Except.map]


/-- Token of a nonempty input is the token of its head character. -/
theorem getToken_cons (c : Char) (l : List Char) :
    getToken (c :: l) = getTokenC c := rfl

/-- Reduction of a bind whose left side already succeeded. -/
theorem ebind_ok_red {α β : Type} (a : α) (f : α → Except Err β) :
    (Except.ok a >>= f) = f a := rfl

/-- The serialization of a stored number starts a `NUMBER` token. -/
theorem serSlot_hd_num (v : JNum) (hwf : wfSlot (.num v) = true)
    (r : List Char) :
    getToken (serSlot (.num v) ++ r) = Token.numTok :=
  (serSlot_hd _ hwf r).2

/-- The serialization of a nested fraction starts with `(`. -/
theorem serSlot_hd_sub (a b : Slot) (hwf : wfSlot (.sub a b) = true)
    (r : List Char) :
    getToken (serSlot (.sub a b) ++ r) = Token.lparen :=
  (serSlot_hd _ hwf r).2

/-- Parsing the serialization of a well-formed nested fraction followed by
any trailing input returns exactly that fraction, with the trailing input's
leading whitespace consumed. -/
theorem parseP_ser :
    ∀ (s : Slot), wfSlot s = true →
      ∀ (fuel : ℕ), sdepth s ≤ fuel →
        ∀ (a b : Slot), s = Slot.sub a b →
          ∀ (post : List Char),
            parseP fuel (serSlot s ++ post) = .ok (⟨a, b⟩, eatWs post) := by
  intro s
  induction s with
  | num v =>
      intro _ _ _ a b h
      exact absurd h (by simp)
  | sub a b iha ihb =>
      intro hwf fuel hfuel a' b' heq post
      obtain ⟨rfl, rfl⟩ : a = a' ∧ b = b' := by
        injection heq with h1 h2
        exact ⟨h1, h2⟩
      simp only [wfSlot, Bool.and_eq_true, Bool.not_eq_true',
        beq_eq_false_iff_ne] at hwf
      obtain ⟨⟨hwa, hwb⟩, hb0⟩ := hwf
      simp only [sdepth] at hfuel
      obtain ⟨m, rfl⟩ : ∃ m, fuel = m + 1 := ⟨fuel - 1, by omega⟩
      have hma : sdepth a ≤ m := by omega
      have hmb : sdepth b ≤ m := by omega
      have hL : serSlot (Slot.sub a b) ++ post
          = '(' :: (serSlot a ++
              (' ' :: '/' :: ' ' :: (serSlot b ++ (')' :: post)))) := by
        simp [serSlot, List.append_assoc]
      rw [hL]
      simp only [parseP]
      rw [eatWs_cons_nws (by decide)]
      simp only [getToken_cons, List.tail_cons]
      rw [if_neg (by decide)]
      rw [(serSlot_hd a hwa _).1]
      cases a with
      | num v =>
          cases v with
          | none => simp [wfSlot] at hwa
          | some za =>
              have hga := serSlot_hd_num (some za) hwa
                (' ' :: '/' :: ' ' :: (serSlot b ++ (')' :: post)))
              simp only [hga]
              simp only [serSlot]
              rw [numRun_ser za _ (by rw [getToken_cons]; decide)]
              simp only [ebind_ok_red]
              rw [eatWs_cons_ws (by decide)]
              rw [eatWs_cons_nws (by decide)]
              simp only [getToken_cons]
              rw [if_neg (by decide)]
              simp only [List.tail_cons]
              rw [eatWs_cons_ws (by decide)]
              rw [(serSlot_hd b hwb _).1]
              cases b with
              | num w =>
                  cases w with
                  | none => simp [wfSlot] at hwb
                  | some zb =>
                      have hzb0 : zb ≠ 0 := by
                        intro h
                        exact hb0 (by rw [h])
                      have hgb := serSlot_hd_num (some zb) hwb (')' :: post)
                      simp only [hgb]
                      simp only [serSlot]
                      rw [numRun_ser zb _ (by rw [getToken_cons]; decide)]
                      simp only [ebind_ok_red]
                      rw [eatWs_cons_nws (by decide)]
                      simp only [getToken_cons]
                      rw [if_neg (by decide)]
                      simp only [List.tail_cons]
                      simp only [fromPair]
                      rw [setSlot_ser zb false (by simpa [wfSlot] using hwb) (fun _ => hzb0)]
                      rw [setSlot_ser za true (by simpa [wfSlot] using hwa) (by simp)]
                      simp only [setSlot, ebind_ok_red]
                      try rfl
              | sub b1 b2 =>
                  have hgb := serSlot_hd_sub b1 b2 hwb (')' :: post)
                  simp only [hgb]
                  rw [ihb hwb m hmb b1 b2 rfl (')' :: post)]
                  simp only [ebind_ok_red]
                  simp only [eatWs_idem]
                  rw [eatWs_cons_nws (by decide)]
                  simp only [getToken_cons]
                  rw [if_neg (by decide)]
                  simp only [List.tail_cons]
                  simp only [fromPair]
                  rw [setSlot_ser za true (by simpa [wfSlot] using hwa) (by simp)]
                  simp only [setSlot, ebind_ok_red]
                  try rfl
      | sub a1 a2 =>
          have hga := serSlot_hd_sub a1 a2 hwa
            (' ' :: '/' :: ' ' :: (serSlot b ++ (')' :: post)))
          simp only [hga]
          rw [iha hwa m hma a1 a2 rfl _]
          simp only [ebind_ok_red]
          simp only [eatWs_idem]
          rw [eatWs_cons_ws (by decide)]
          rw [eatWs_cons_nws (by decide)]
          simp only [getToken_cons]
          rw [if_neg (by decide)]
          simp only [List.tail_cons]
          rw [eatWs_cons_ws (by decide)]
          rw [(serSlot_hd b hwb _).1]
          cases b with
          | num w =>
              cases w with
              | none => simp [wfSlot] at hwb
              | some zb =>
                  have hzb0 : zb ≠ 0 := by
                    intro h
                    exact hb0 (by rw [h])
                  have hgb := serSlot_hd_num (some zb) hwb (')' :: post)
                  simp only [hgb]
                  simp only [serSlot]
                  rw [numRun_ser zb _ (by rw [getToken_cons]; decide)]
                  simp only [ebind_ok_red]
                  rw [eatWs_cons_nws (by decide)]
                  simp only [getToken_cons]
                  rw [if_neg (by decide)]
                  simp only [List.tail_cons]
                  simp only [fromPair]
                  rw [setSlot_ser zb false (by simpa [wfSlot] using hwb) (fun _ => hzb0)]
                  simp only [setSlot, ebind_ok_red]
                  try rfl
          | sub b1 b2 =>
              have hgb := serSlot_hd_sub b1 b2 hwb (')' :: post)
              simp only [hgb]
              rw [ihb hwb m hmb b1 b2 rfl (')' :: post)]
              simp only [ebind_ok_red]
              simp only [eatWs_idem]
              rw [eatWs_cons_nws (by decide)]
              simp only [getToken_cons]
              rw [if_neg (by decide)]
              simp only [List.tail_cons]
              simp only [fromPair]
              simp only [setSlot, ebind_ok_red]
              try rfl

/-- A serialization is at least as long as the slot is deep. -/
theorem sdepth_le_len : ∀ s : Slot, sdepth s ≤ (serSlot s).length := by
  intro s
  induction s with
  | num v => simp [sdepth]
  | sub a b iha ihb =>
      simp only [sdepth, serSlot, List.length_cons, List.length_append,
        List.length_singleton]
      omega

/-- Round trip: parsing the serialization of any well-formed fraction
returns it unchanged. -/
theorem parseApi_ser (f : Frac) (hwf : wfF f = true) :
    parseApi (serFrac f) = .ok f := by
  obtain ⟨n, d⟩ := f
  have hdep : sdepth (Slot.sub n d) ≤ (serSlot (Slot.sub n d)).length + 1 :=
    le_trans (sdepth_le_len _) (by omega)
  have h := parseP_ser (Slot.sub n d) hwf _ hdep n d rfl []
  rw [List.append_nil] at h
  simp only [parseApi, serFrac, Frac.toSlot]
  rw [h]
  rfl


/-- A successful `valueOf` never returns `NaN`: the reduced form is two
integers with a nonzero denominator. -/
theorem valueOfApi_some {fuel : ℕ} {f : Frac} {l : Option QJ}
    (h : valueOfApi fuel f = .ok l) : ∃ q : QJ, l = some q := by
  simp only [valueOfApi] at h
  rw [ebind_ok] at h
  obtain ⟨xc, hxc, h⟩ := h
  rw [ebind_ok] at h
  obtain ⟨r, hr, h⟩ := h
  cases h
  obtain ⟨a, b, hfr, _, _, hbpos⟩ := reduceF_flat hr
  subst hfr
  have hb : ¬(b = 0) := by omega
  refine ⟨⟨a, b⟩, ?_⟩
  simp [slotNum, jsDivQ, hb]

/-- `eq` of a well-formed fraction with itself returns `true` whenever it
returns at all. -/
theorem eq_self_ok {fuel : ℕ} {f : Frac} {r : Bool}
    (hwf : wfF f = true) (h : eqApi fuel f (.frc f) .undef = .ok r) :
    r = true := by
  simp only [eqApi, compareApi] at h
  rw [ebind_ok] at h
  obtain ⟨l, hl, h⟩ := h
  rw [ebind_ok] at h
  obtain ⟨o, ho, h⟩ := h
  rw [ctor_copy hwf] at ho
  injection ho with ho
  subst ho
  rw [ebind_ok] at h
  obtain ⟨l2, hl2, h⟩ := h
  injection h with h
  have hll : l2 = l := by
    rw [hl] at hl2
    injection hl2 with h2
    exact h2.symm
  subst hll
  obtain ⟨q, rfl⟩ := valueOfApi_some hl
  subst h
  simp [jsEqQ, QJ.eq]


/-- C5 (amended): for every value `f` the parser produces, parsing the
serialization of `f` succeeds and returns `f` itself (so the round trip is
the identity, which is stronger than value equality) — but
`parse(v.toString()).eq(v)` does not hold as stated, because `eq` throws a
division-by-zero error for some parser-producible values (see the
counterexample); whenever `eq` does return, it returns `true`. -/
theorem claim_C5 :
    ∀ (fuel : ℕ) (s : List Char) (f : Frac) (rest : List Char),
      parseP fuel s = .ok (f, rest) →
      parseApi (serFrac f) = .ok f ∧
      ∀ (fuel2 : ℕ) (r : Bool),
        eqApi fuel2 f (.frc f) .undef = .ok r → r = true := by
  intro fuel s f rest h
  have hwf := parseP_wf fuel s f rest h
  exact ⟨parseApi_ser f hwf, fun _ _ hr => eq_self_ok hwf hr⟩

/-- Counterexample to C5 as stated: `v = (1 / (0 / 1))` is produced by the
parser (the inner `0` is a numerator, so it is accepted), yet
`parse(v.toString()).eq(v)` does not hold — `eq` throws a division-by-zero
error, because `valueOf` must reduce `v` and the denominator `(0 / 1)` has
value zero. -/
theorem claim_C5_cex :
    parseP 20 "(1 / (0 / 1))".data =
      .ok (⟨.num (some 1), .sub (.num (some 0)) (.num (some 1))⟩, []) ∧
    eqApi 10 ⟨.num (some 1), .sub (.num (some 0)) (.num (some 1))⟩
      (.frc ⟨.num (some 1), .sub (.num (some 0)) (.num (some 1))⟩) .undef =
      .error .divByZero :=
  ⟨rfl, rfl⟩

/-- Witness for C5 at the parse of `"(1 / 2)"`. -/
theorem claim_C5_witness :
    parseApi (serFrac ⟨.num (some 1), .num (some 2)⟩) =
      .ok ⟨.num (some 1), .num (some 2)⟩ ∧ true = true :=
  ⟨(claim_C5 8 "(1 / 2)".data ⟨.num (some 1), .num (some 2)⟩ [] rfl).1,
   (claim_C5 8 "(1 / 2)".data ⟨.num (some 1), .num (some 2)⟩ [] rfl).2
      10 true rfl⟩


/-- Decomposition of a defined fraction value into slot values. -/
theorem fval_parts {n d : Slot} {q : ℚ} (h : fval ⟨n, d⟩ = some q) :
    ∃ qn qd : ℚ, svalSlot n = some qn ∧ svalSlot d = some qd ∧ qd ≠ 0 ∧
      q = qn / qd := by
  simp only [fval, Frac.toSlot, svalSlot] at h
  cases hn : svalSlot n with
  | none => rw [hn] at h; simp at h
  | some qn =>
      cases hd : svalSlot d with
      | none => rw [hn, hd] at h; simp at h
      | some qd =>
          rw [hn, hd] at h
          by_cases h0 : qd = 0
          · simp [h0] at h
          · simp only [h0, if_false, if_neg h0, Option.some.injEq] at h
            exact ⟨qn, qd, rfl, rfl, h0, h.symm⟩

/-- The value of `Frac.#from` of a slot is the slot's value. -/
theorem fromSlot_val {s : Slot} {f : Frac} (h : fromSlot s = .ok f) :
    fval f = svalSlot s := by
  cases s with
  | num v =>
      cases v with
      | none => simp [fromSlot, fromNum, setSlot, toJsNum, validateNumber,
          Bind.bind, Except.bind, Except.map] at h
      | some z =>
          simp only [fromSlot, fromNum, setSlot, toJsNum] at h
          rw [validateNumber_int_num] at h
          by_cases hz : isSafeInt z = true
          · rw [if_pos hz] at h
            simp only [Except.map, Bind.bind, Except.bind] at h
            rw [validateNumber_int_den] at h
            simp only [if_neg one_ne_zero] at h
            rw [if_pos (by decide)] at h
            injection h with h
            subst h
            simp [fval, Frac.toSlot, svalSlot]
          · rw [if_neg hz] at h
            simp [Except.map, Bind.bind, Except.bind] at h
  | sub a b =>
      simp only [fromSlot] at h
      injection h with h
      subst h
      rfl

/-- Value of the in-place inverse of a fraction with a nonzero value. -/
theorem fval_invF {f : Frac} {q : ℚ} (h : fval f = some q) (hq : q ≠ 0) :
    fval (invF f) = some q⁻¹ := by
  obtain ⟨n, d⟩ := f
  obtain ⟨qn, qd, hn, hd, hd0, rfl⟩ := fval_parts h
  have hn0 : qn ≠ 0 := by
    intro h0
    exact hq (by rw [h0, zero_div])
  simp only [invF, fval, Frac.toSlot, svalSlot, hn, hd]
  rw [if_neg hn0]
  congr 1
  field_simp


/-- The cross-cancellation of `mul$` divides both slots by a common nonzero
factor and keeps slot values defined. -/
theorem crossCancel_val {s t : Slot} {v w : ℚ}
    (hs : svalSlot s = some v) (ht : svalSlot t = some w)
    (hvw : v ≠ 0 ∨ w ≠ 0) :
    ∃ (s2 t2 : Slot) (g v2 w2 : ℚ), crossCancel s t = (s2, t2) ∧ g ≠ 0 ∧
      svalSlot s2 = some v2 ∧ svalSlot t2 = some w2 ∧
      v = g * v2 ∧ w = g * w2 := by
  cases s with
  | sub sa sb =>
      exact ⟨.sub sa sb, t, 1, v, w, rfl, one_ne_zero, hs, ht, (one_mul v).symm,
        (one_mul w).symm⟩
  | num xv =>
      cases t with
      | sub ta tb =>
          exact ⟨.num xv, .sub ta tb, 1, v, w, rfl, one_ne_zero, hs, ht,
            (one_mul v).symm, (one_mul w).symm⟩
      | num yv =>
          cases xv with
          | none => simp [svalSlot] at hs
          | some x =>
              cases yv with
              | none => simp [svalSlot] at ht
              | some y =>
                  simp only [svalSlot, Option.some.injEq] at hs ht
                  subst hs
                  subst ht
                  have hxy : ¬(x = 0 ∧ y = 0) := by
                    rcases hvw with h | h
                    · intro hc
                      exact h (by exact_mod_cast congrArg (Int.cast : ℤ → ℚ) hc.1)
                    · intro hc
                      exact h (by exact_mod_cast congrArg (Int.cast : ℤ → ℚ) hc.2)
                  obtain ⟨g, hg, hg0, hgx, hgy, _⟩ := gcd_int_spec x y hxy
                  obtain ⟨c, hc⟩ := hgx
                  obtain ⟨e, he⟩ := hgy
                  refine ⟨.num (some c), .num (some e), (g : ℚ), (c : ℚ), (e : ℚ),
                    ?_, ?_, rfl, rfl, ?_, ?_⟩
                  · simp only [crossCancel, Arith.ratioPair, hg, jsDivO,
                      if_neg hg0]
                    rw [hc, Int.mul_tdiv_cancel_left c hg0,
                      he, Int.mul_tdiv_cancel_left e hg0]
                  · exact_mod_cast hg0
                  · exact_mod_cast congrArg (Int.cast : ℤ → ℚ) hc
                  · exact_mod_cast congrArg (Int.cast : ℤ → ℚ) he

/-- The reduced pair `(a/g·sign b, |b|/g)` has the same rational value as
`(a, b)`. -/
theorem red_val_eq (a b : ℤ) (hb : b ≠ 0) :
    ((a / (Nat.gcd a.natAbs b.natAbs : ℤ) * b.sign : ℤ) : ℚ) /
      (((b.natAbs : ℤ) / (Nat.gcd a.natAbs b.natAbs : ℤ) : ℤ) : ℚ) =
      (a : ℚ) / (b : ℚ) := by
  have hbA : 0 < b.natAbs := Int.natAbs_pos.mpr hb
  have hgN : 0 < Nat.gcd a.natAbs b.natAbs := Nat.gcd_pos_of_pos_right _ hbA
  set G : ℤ := (Nat.gcd a.natAbs b.natAbs : ℤ) with hG
  have hg0 : G ≠ 0 := by positivity
  have hga : G ∣ a := by
    rw [hG]
    exact dvd_trans (Int.natCast_dvd_natCast.mpr (Nat.gcd_dvd_left _ _))
      (Int.natAbs_dvd.mpr dvd_rfl)
  have hgb : G ∣ b := by
    rw [hG]
    exact dvd_trans (Int.natCast_dvd_natCast.mpr (Nat.gcd_dvd_right _ _))
      (Int.natAbs_dvd.mpr dvd_rfl)
  obtain ⟨c, hc⟩ := hga
  obtain ⟨e, he⟩ := hgb
  have he0 : e ≠ 0 := by
    intro h
    rw [h, mul_zero] at he
    exact hb he
  have hGpos : 0 < G := by
    rw [hG]
    exact_mod_cast hgN
  have hac : a / G = c := by
    rw [hc]
    exact Int.mul_ediv_cancel_left c hg0
  have hbabs : (b.natAbs : ℤ) / G = (e.natAbs : ℤ) := by
    have : (b.natAbs : ℤ) = G * (e.natAbs : ℤ) := by
      have h1 := congrArg Int.natAbs he
      rw [Int.natAbs_mul] at h1
      have h2 : G.natAbs = Nat.gcd a.natAbs b.natAbs := by
        rw [hG]
        exact Int.natAbs_ofNat _
      rw [h2] at h1
      rw [hG]
      exact_mod_cast h1
    rw [this]
    exact Int.mul_ediv_cancel_left _ hg0
  have hsgn : b.sign = e.sign := by
    rw [he, Int.sign_mul, Int.sign_eq_one_of_pos hGpos, one_mul]
  rw [hac, hbabs, hsgn, hc, he]
  push_cast
  rw [mul_div_mul_left _ _ (by exact_mod_cast hg0 : (G : ℚ) ≠ 0)]
  have he0' : (e : ℚ) ≠ 0 := by exact_mod_cast he0
  rcases lt_trichotomy e 0 with h | h | h
  · rw [Int.sign_eq_neg_one_of_neg h]
    rw [abs_of_neg (by exact_mod_cast h : (e : ℚ) < 0)]
    push_cast
    field_simp
  · exact absurd h he0
  · rw [Int.sign_eq_one_of_pos h]
    rw [abs_of_pos (by exact_mod_cast h : (0 : ℚ) < (e : ℚ))]
    push_cast
    ring


/-- A conditional that returned `ok` returns the value of its `ok` branch. -/
theorem ok_of_ite_ok {α : Type} {P : Prop} [Decidable P] {x y : α} {e : Err}
    (h : (if P then Except.ok x else Except.error e) = Except.ok y) :
    y = x := by
  split at h
  · injection h with h
    exact h.symm
  · exact absurd h (by simp)

/-- A two-level conditional (error / ok / error) that returned `ok` returns
the value of its `ok` branch. -/
theorem ok_of_ite2_ok {α : Type} {P Q : Prop} [Decidable P] [Decidable Q]
    {x y : α} {e1 e2 : Err}
    (h : (if P then Except.error e1
          else if Q then Except.ok x else Except.error e2) = Except.ok y) :
    y = x := by
  split at h
  · exact absurd h (by simp)
  · exact ok_of_ite_ok h

/-- Characterization of a successful flat `reduce$`: the two stored values
must be integers with a nonzero denominator, and the result is the reduced
pair `(a/g·sign b, |b|/g)`. -/
theorem reduceF_num_char {m : ℕ} {nv dv : JNum} {r : Frac}
    (h : reduceF (m + 1) ⟨.num nv, .num dv⟩ = .ok r) :
    ∃ a b : ℤ, nv = some a ∧ dv = some b ∧ b ≠ 0 ∧
      r = ⟨.num (some (a / (Nat.gcd a.natAbs b.natAbs : ℤ) * b.sign)),
           .num (some ((b.natAbs : ℤ) / (Nat.gcd a.natAbs b.natAbs : ℤ)))⟩ := by
  simp only [reduceF] at h
  rw [ebind_ok] at h
  obtain ⟨n2, hn2, h⟩ := h
  rw [ebind_ok] at h
  obtain ⟨d2, hd2, h⟩ := h
  injection h with h
  subst h
  cases nv with
  | none => simp [jsDivO, jsMulO, toJsNum, validateNumber] at hn2
  | some a =>
  cases dv with
  | none => simp [jsSignO, jsMulO, toJsNum, validateNumber] at hn2
  | some b =>
  by_cases hb0 : b = 0
  · subst hb0
    exfalso
    by_cases ha0 : a = 0
    · subst ha0
      have hg : Arith.gcd (some (0 : ℤ)) (some (0 : ℤ)) = some 0 := by decide
      rw [hg] at hn2
      simp [jsAbsO, jsDivO, jsMulO, toJsNum, validateNumber] at hn2
    · have hg : Arith.gcd (some a) (some (0 : ℤ)) = some a := by
        rw [gcd_unfold]
        simp [jsTruthy, ha0]
      rw [hg] at hd2
      have hz : jsAbsO (jsDivO (some (0 : ℤ)) (some a)) = some 0 := by
        simp [jsDivO, jsAbsO, ha0, Int.zero_tdiv]
      rw [hz] at hd2
      simp only [toJsNum] at hd2
      rw [validateNumber_int_den] at hd2
      simp at hd2
  · obtain ⟨s, hs, hs0, hsa, hsb, hsn⟩ := gcd_int_spec a b (by tauto)
    have habs : (s.natAbs : ℤ) = (Nat.gcd a.natAbs b.natAbs : ℤ) := by
      exact_mod_cast hsn
    have hgN : 0 < Nat.gcd a.natAbs b.natAbs :=
      Nat.gcd_pos_of_pos_right _ (Int.natAbs_pos.mpr hb0)
    have hg0 : ((Nat.gcd a.natAbs b.natAbs : ℤ)) ≠ 0 := by
      exact_mod_cast Nat.pos_iff_ne_zero.mp hgN
    have hga : (Nat.gcd a.natAbs b.natAbs : ℤ) ∣ a := by
      rw [← habs]
      exact Int.natAbs_dvd.mpr hsa
    obtain ⟨c, hc⟩ := hga
    obtain ⟨e, he⟩ := hsb
    have hctdiv : a.tdiv (s.natAbs : ℤ) = c := by
      have h1 := Int.mul_tdiv_cancel_left c hg0
      rw [← hc] at h1
      rw [habs]
      exact h1
    have hetdiv : b.tdiv s = e := by
      have h1 := Int.mul_tdiv_cancel_left e hs0
      rw [← he] at h1
      exact h1
    have hdivn : jsDivO (some a) (jsAbsO (some s)) = some c := by
      simp only [jsAbsO, jsDivO]
      rw [if_neg (by rw [habs]; exact hg0), hctdiv]
    have hdivd : jsDivO (some b) (some s) = some e := by
      simp only [jsDivO]
      rw [if_neg hs0, hetdiv]
    rw [hs, hdivn] at hn2
    rw [hs, hdivd] at hd2
    simp only [jsSignO, jsMulO, toJsNum] at hn2
    rw [validateNumber_int_num] at hn2
    have hn2v := ok_of_ite_ok hn2
    simp only [jsAbsO, toJsNum] at hd2
    rw [validateNumber_int_den] at hd2
    have hd2v := ok_of_ite2_ok hd2
    refine ⟨a, b, rfl, rfl, hb0, ?_⟩
    have hcdiv : a / (Nat.gcd a.natAbs b.natAbs : ℤ) = c := by
      have h1 := Int.mul_ediv_cancel_left c hg0
      rw [← hc] at h1
      exact h1
    have hmul : b.natAbs = Nat.gcd a.natAbs b.natAbs * e.natAbs := by
      have h1 := congrArg Int.natAbs he
      rw [Int.natAbs_mul, hsn] at h1
      exact h1
    have heabs : ((e.natAbs : ℕ) : ℤ) =
        (b.natAbs : ℤ) / (Nat.gcd a.natAbs b.natAbs : ℤ) := by
      have hbe : (b.natAbs : ℤ) =
          (Nat.gcd a.natAbs b.natAbs : ℤ) * ((e.natAbs : ℕ) : ℤ) := by
        exact_mod_cast hmul
      rw [hbe, Int.mul_ediv_cancel_left _ hg0]
    rw [hn2v, hd2v, hcdiv, heabs]


theorem gcd_cancel_aux (G cA eA : ℕ) (hGpos : 0 < G)
    (hG : G = Nat.gcd (G * cA) (G * eA)) : Nat.gcd cA eA = 1 := by
  rw [Nat.gcd_mul_left] at hG
  exact (Nat.eq_of_mul_eq_mul_left hGpos (by rw [mul_one]; exact hG)).symm

/-- The reduced pair `(a/g·sign b, |b|/g)` is coprime. -/
theorem red_coprime (a b : ℤ) (hb : b ≠ 0) :
    Nat.gcd (a / (Nat.gcd a.natAbs b.natAbs : ℤ) * b.sign).natAbs
      ((b.natAbs : ℤ) / (Nat.gcd a.natAbs b.natAbs : ℤ)).natAbs = 1 := by
  have hbA : 0 < b.natAbs := Int.natAbs_pos.mpr hb
  have hgN : 0 < Nat.gcd a.natAbs b.natAbs := Nat.gcd_pos_of_pos_right _ hbA
  have hg0 : ((Nat.gcd a.natAbs b.natAbs : ℤ)) ≠ 0 := by
    exact_mod_cast Nat.pos_iff_ne_zero.mp hgN
  have hga : (Nat.gcd a.natAbs b.natAbs : ℤ) ∣ a :=
    dvd_trans (Int.natCast_dvd_natCast.mpr (Nat.gcd_dvd_left _ _))
      (Int.natAbs_dvd.mpr dvd_rfl)
  have hgb : (Nat.gcd a.natAbs b.natAbs : ℤ) ∣ b :=
    dvd_trans (Int.natCast_dvd_natCast.mpr (Nat.gcd_dvd_right _ _))
      (Int.natAbs_dvd.mpr dvd_rfl)
  obtain ⟨c, hc⟩ := hga
  obtain ⟨e, he⟩ := hgb
  have hcdiv : a / (Nat.gcd a.natAbs b.natAbs : ℤ) = c := by
    have h1 := Int.mul_ediv_cancel_left c hg0
    rw [← hc] at h1
    exact h1
  have haA : a.natAbs = Nat.gcd a.natAbs b.natAbs * c.natAbs := by
    have h1 := congrArg Int.natAbs hc
    rwa [Int.natAbs_mul, Int.natAbs_ofNat] at h1
  have hbB : b.natAbs = Nat.gcd a.natAbs b.natAbs * e.natAbs := by
    have h1 := congrArg Int.natAbs he
    rwa [Int.natAbs_mul, Int.natAbs_ofNat] at h1
  have heabs : (b.natAbs : ℤ) / (Nat.gcd a.natAbs b.natAbs : ℤ) =
      ((e.natAbs : ℕ) : ℤ) := by
    have hbe : (b.natAbs : ℤ) =
        (Nat.gcd a.natAbs b.natAbs : ℤ) * ((e.natAbs : ℕ) : ℤ) := by
      exact_mod_cast hbB
    rw [hbe, Int.mul_ediv_cancel_left _ hg0]
  rw [hcdiv, heabs]
  have hsign : (c * b.sign).natAbs = c.natAbs := by
    rw [Int.natAbs_mul, Int.natAbs_sign, if_neg hb, mul_one]
  rw [hsign, Int.natAbs_ofNat]
  exact gcd_cancel_aux _ _ _ hgN (by rw [← haA, ← hbB])

/-- A validated embedded integer is returned unchanged. -/
theorem validateNumber_int_ok {w z : ℤ} {pos : Bool}
    (h : validateNumber (.fin (QJ.ofInt w)) pos = .ok z) : z = w := by
  cases pos with
  | true =>
      rw [validateNumber_int_num] at h
      exact ok_of_ite_ok h
  | false =>
      rw [validateNumber_int_den] at h
      exact ok_of_ite2_ok h


/-- Value correctness and canonicality of the reduction/multiplication
engine: every successful `reduce$` returns the canonical form of its
input's value; `div$$`, `mul$$`, `mul$` and the slot-combination step
multiply values (with `div$$` multiplying by the value of the inverted
operand). -/
theorem engineVal (fuel : ℕ) :
    (∀ f r, reduceF fuel f = .ok r →
       canonicalF r ∧ ∀ q : ℚ, fval f = some q → fval r = some q) ∧
    (∀ a b r o, divDD fuel a b = .ok (r, o) →
       canonicalF r ∧ ∀ qa qb : ℚ, fval a = some qa →
         fval (invF b) = some qb → fval r = some (qa * qb)) ∧
    (∀ a b r o, mulDD fuel a b = .ok (r, o) →
       canonicalF r ∧ ∀ qa qb : ℚ, fval a = some qa → fval b = some qb →
         fval r = some (qa * qb)) ∧
    (∀ s1 s2 pos out, combineSlots fuel s1 s2 pos = .ok out →
       ∀ v1 v2 : ℚ, svalSlot s1 = some v1 → svalSlot s2 = some v2 →
         svalSlot out = some (v1 * v2)) ∧
    (∀ a b r, mulF fuel a b = .ok r →
       canonicalF r ∧ ∀ qa qb : ℚ, fval a = some qa → fval b = some qb →
         fval r = some (qa * qb)) := by
  induction fuel with
  | zero =>
      refine ⟨?_, ?_, ?_, ?_, ?_⟩ <;> intro _ _ <;>
        simp [reduceF, divDD, mulDD, combineSlots, mulF]
  | succ n ih =>
    obtain ⟨ihR, ihD, ihM, ihC, ihF⟩ := ih
    have hRed : ∀ f r, reduceF (n + 1) f = .ok r →
        canonicalF r ∧ ∀ q : ℚ, fval f = some q → fval r = some q := by
      rintro ⟨fn, fd⟩ r h
      have hNest :
          ∀ (h : (do
              let a ← fromSlot fn
              let b ← fromSlot fd
              let rr ← divDD n a b
              (.ok ⟨rr.1.n, rr.1.d⟩ : Except Err Frac)) = .ok r),
            canonicalF r ∧ ∀ q : ℚ, fval ⟨fn, fd⟩ = some q →
              fval r = some q := by
        intro h
        rw [ebind_ok] at h
        obtain ⟨a, ha, h⟩ := h
        rw [ebind_ok] at h
        obtain ⟨b, hb, h⟩ := h
        rw [ebind_ok] at h
        obtain ⟨⟨rr, oo⟩, hdd, h⟩ := h
        injection h with h
        subst h
        have hcanon : canonicalF (⟨rr.n, rr.d⟩ : Frac) := (ihD _ _ _ _ hdd).1
        refine ⟨hcanon, ?_⟩
        intro q hq
        obtain ⟨qn, qd, hn, hd, hd0, rfl⟩ := fval_parts hq
        have hva : fval a = some qn := by rw [fromSlot_val ha, hn]
        have hvb : fval b = some qd := by rw [fromSlot_val hb, hd]
        have hvib : fval (invF b) = some qd⁻¹ := fval_invF hvb hd0
        have := (ihD _ _ _ _ hdd).2 qn qd⁻¹ hva hvib
        show fval rr = some (qn / qd)
        rw [this, div_eq_mul_inv]
      cases fn with
      | num nv =>
          cases fd with
          | num dv =>
              obtain ⟨a, b, rfl, rfl, hb0, rfl⟩ := reduceF_num_char h
              have hflat := reduceF_flat h
              obtain ⟨a2, b2, heq, hsa, hsb, hbpos⟩ := hflat
              injection heq with he1 he2
              injection he1 with he1
              injection he2 with he2
              injection he1 with he1
              injection he2 with he2
              refine ⟨⟨_, _, rfl, by rw [he1]; exact hsa,
                by rw [he2]; exact hsb, by rw [he2]; exact hbpos,
                red_coprime a b hb0⟩, ?_⟩
              intro q hq
              have hq2 : q = (a : ℚ) / (b : ℚ) := by
                simp only [fval, Frac.toSlot, svalSlot] at hq
                rw [if_neg (by exact_mod_cast hb0 : ¬((b : ℚ) = 0))] at hq
                injection hq with hq
                exact hq.symm
              have hdpos : (0 : ℤ) <
                  (b.natAbs : ℤ) / (Nat.gcd a.natAbs b.natAbs : ℤ) := by
                rw [he2]
                exact hbpos
              simp only [fval, Frac.toSlot, svalSlot]
              rw [if_neg (by
                intro hcast
                have : ((b.natAbs : ℤ) / (Nat.gcd a.natAbs b.natAbs : ℤ)) = 0 := by
                  exact_mod_cast hcast
                omega)]
              rw [hq2, red_val_eq a b hb0]
          | sub da db =>
              simp only [reduceF] at h
              exact hNest h
      | sub na nb =>
          simp only [reduceF] at h
          exact hNest h
    refine ⟨hRed, ?_, ?_, ?_, ?_⟩
    · rintro a b r o h
      simp only [divDD] at h
      rw [ebind_ok] at h
      obtain ⟨⟨rr, b2⟩, hm, h⟩ := h
      rw [ebind_ok] at h
      obtain ⟨b3, hb3, h⟩ := h
      injection h with h
      injection h with h1 h2
      subst h1
      refine ⟨(ihM _ _ _ _ hm).1, ?_⟩
      intro qa qb hqa hqb
      exact (ihM _ _ _ _ hm).2 qa qb hqa hqb
    · rintro a b r o h
      simp only [mulDD] at h
      rw [ebind_ok] at h
      obtain ⟨br, hbr, h⟩ := h
      rw [ebind_ok] at h
      obtain ⟨rr, hrr, h⟩ := h
      injection h with h
      injection h with h1 h2
      subst h1
      refine ⟨(ihF _ _ _ hrr).1, ?_⟩
      intro qa qb hqa hqb
      exact (ihF _ _ _ hrr).2 qa qb hqa ((ihR _ _ hbr).2 qb hqb)
    · rintro s1 s2 pos out h v1 v2 h1 h2
      simp only [combineSlots] at h
      rcases s1 with xv | ⟨s1a, s1b⟩ <;> rcases s2 with yv | ⟨s2a, s2b⟩
      case num.num =>
        cases xv with
        | none => simp [svalSlot] at h1
        | some x =>
        cases yv with
        | none => simp [svalSlot] at h2
        | some y =>
        simp only [svalSlot, Option.some.injEq] at h1 h2
        subst h1
        subst h2
        simp only [jsMulO, toJsNum] at h
        rw [emap_ok] at h
        obtain ⟨z, hz, h⟩ := h
        subst h
        have := validateNumber_int_ok hz
        subst this
        simp only [svalSlot]
        push_cast
        rfl
      all_goals (
        rw [ebind_ok] at h
        obtain ⟨fa, hfa, h⟩ := h
        rw [ebind_ok] at h
        obtain ⟨fb, hfb, h⟩ := h
        rw [ebind_ok] at h
        obtain ⟨⟨rr, oo⟩, hmd, h⟩ := h
        injection h with h
        subst h
        have hva : fval fa = some v1 := by rw [fromSlot_val hfa, h1]
        have hvb : fval fb = some v2 := by rw [fromSlot_val hfb, h2]
        exact (ihM _ _ _ _ hmd).2 v1 v2 hva hvb)
    · rintro ⟨an, ad⟩ ⟨bn, bd⟩ r h
      simp only [mulF] at h
      rw [ebind_ok] at h
      obtain ⟨newN, hN, h⟩ := h
      rw [ebind_ok] at h
      obtain ⟨newD, hD, h⟩ := h
      refine ⟨(ihR _ _ h).1, ?_⟩
      intro qa qb hqa hqb
      obtain ⟨qan, qad, han, had, had0, rfl⟩ := fval_parts hqa
      obtain ⟨qbn, qbd, hbn, hbd, hbd0, rfl⟩ := fval_parts hqb
      obtain ⟨s2, t2, g1, v1, w1, hcc1, hg1, hs2, ht2, hv1, hw1⟩ :=
        crossCancel_val han hbd (Or.inr hbd0)
      obtain ⟨s3, t3, g2, v3, w3, hcc2, hg2, hs3, ht3, hv3, hw3⟩ :=
        crossCancel_val had hbn (Or.inl had0)
      rw [hcc1, hcc2] at hN hD
      simp only at hN hD
      have hvN : svalSlot newN = some (v1 * w3) := ihC _ _ _ _ hN v1 w3 hs2 ht3
      have hvD : svalSlot newD = some (v3 * w1) := ihC _ _ _ _ hD v3 w1 hs3 ht2
      have hw10 : w1 ≠ 0 := by
        intro hc
        exact hbd0 (by rw [hw1, hc, mul_zero])
      have hv30 : v3 ≠ 0 := by
        intro hc
        exact had0 (by rw [hv3, hc, mul_zero])
      have hmid : fval ⟨newN, newD⟩ = some ((v1 * w3) / (v3 * w1)) := by
        simp only [fval, Frac.toSlot, svalSlot, hvN, hvD]
        rw [if_neg (mul_ne_zero hv30 hw10)]
      have := (ihR _ _ h).2 _ hmid
      rw [this]
      congr 1
      rw [hv1, hw1, hv3, hw3]
      field_simp
      ring



/-- C6 (mul correctness): when `x.mul(...)` succeeds, the result is
canonical and — whenever the receiver and the constructed operand have
defined rational values — its value is their exact product; concretely,
`new Frac(1, 4).mul("(1 / 2)")` yields `(1, 8)`. -/
theorem claim_C6 :
    (∀ (fuel : ℕ) (x o r : Frac) (nArg : NumSrc) (dArg : DenSrc),
       wfF x = true →
       mulApi fuel x nArg dArg = .ok r →
       ctor nArg dArg = .ok o →
       canonicalF r ∧
       ∀ (qx qy : ℚ), fval x = some qx → fval o = some qy →
         fval r = some (qx * qy)) ∧
    mulApi 20 ⟨.num (some 1), .num (some 4)⟩ (.str "(1 / 2)".data) .undef =
      .ok ⟨.num (some 1), .num (some 8)⟩ := by
  constructor
  · intro fuel x o r nArg dArg hwf h ho
    simp only [mulApi] at h
    rw [ebind_ok] at h
    obtain ⟨xc, hxc, h⟩ := h
    rw [ctor_copy hwf] at hxc
    injection hxc with hxc
    subst hxc
    rw [ebind_ok] at h
    obtain ⟨o2, ho2, h⟩ := h
    rw [ho] at ho2
    injection ho2 with ho2
    subst ho2
    rw [ebind_ok] at h
    obtain ⟨⟨rr, oo⟩, hm, h⟩ := h
    injection h with h
    subst h
    refine ⟨((engineVal fuel).2.2.1 _ _ _ _ hm).1, ?_⟩
    intro qx qy hqx hqy
    exact ((engineVal fuel).2.2.1 _ _ _ _ hm).2 qx qy hqx hqy
  · rfl



/-- Witness for C6 at `(1/4) * "(1 / 2)" = (1/8)`. -/
theorem claim_C6_witness :
    canonicalF ⟨.num (some 1), .num (some 8)⟩ ∧
    fval ⟨.num (some 1), .num (some 8)⟩ = some ((1 : ℚ) / 4 * (1 / 2)) := by
  have h := claim_C6.1 20 ⟨.num (some 1), .num (some 4)⟩
      ⟨.num (some 1), .num (some 2)⟩ ⟨.num (some 1), .num (some 8)⟩
      (.str "(1 / 2)".data) .undef (by decide) rfl rfl
  refine ⟨h.1, h.2 (1 / 4) (1 / 2) ?_ ?_⟩
  · simp [fval, Frac.toSlot, svalSlot]
  · simp [fval, Frac.toSlot, svalSlot]


/-- A bind is not the fuel marker if neither stage is. -/
theorem ebind_ne_fuel {α β : Type} {x : Except Err α} {f : α → Except Err β}
    (hx : x ≠ .error .fuel) (hf : ∀ a, x = .ok a → f a ≠ .error .fuel) :
    (x >>= f) ≠ .error .fuel := by
  cases x with
  | error e => simpa [Bind.bind, Except.bind] using hx
  | ok a => simpa [Bind.bind, Except.bind] using hf a rfl

/-- The validator never runs out of fuel. -/
theorem validateNumber_ne_fuel (x : JsNum) (b : Bool) :
    validateNumber x b ≠ .error .fuel := by
  cases x with
  | fin q =>
      simp only [validateNumber]
      split
      · simp
      · split
        · simp
        · split <;> simp
  | nan =>
      simp only [validateNumber]
      split <;> simp
  | inf p =>
      simp only [validateNumber]
      split <;> simp

/-- A setter never runs out of fuel. -/
theorem setSlot_ne_fuel (b : Bool) (v : SetVal) :
    setSlot b v ≠ .error .fuel := by
  cases v with
  | sNum x =>
      simp only [setSlot]
      cases hv : validateNumber x b with
      | error e =>
          have := validateNumber_ne_fuel x b
          rw [hv] at this
          simp only [Except.map]
          intro hc
          injection hc with hc
          exact this (by rw [hc])
      | ok z => simp [Except.map]
  | sFrac f => simp [setSlot]

/-- `Frac.#from` of a slot never runs out of fuel. -/
theorem fromSlot_ne_fuel (s : Slot) : fromSlot s ≠ .error .fuel := by
  cases s with
  | num v =>
      simp only [fromSlot, fromNum]
      exact ebind_ne_fuel (setSlot_ne_fuel _ _)
        (fun a _ => ebind_ne_fuel (setSlot_ne_fuel _ _) (fun b _ => by simp))
  | sub a b => simp [fromSlot]

/-- `Frac.#from` of a slot does not increase the fraction-node count. -/
theorem fromSlot_mu {s : Slot} {g : Frac} (h : fromSlot s = .ok g) :
    muF g ≤ nuSlot s := by
  cases s with
  | num v =>
      simp only [fromSlot, fromNum] at h
      rw [ebind_ok] at h
      obtain ⟨n1, hn1, h⟩ := h
      rw [ebind_ok] at h
      obtain ⟨d1, hd1, h⟩ := h
      injection h with h
      subst h
      cases v with
      | none => simp [setSlot, toJsNum, validateNumber, Except.map] at hn1
      | some z =>
          simp only [setSlot, toJsNum] at hn1 hd1
          rw [emap_ok] at hn1 hd1
          obtain ⟨z1, _, hz1⟩ := hn1
          obtain ⟨z2, _, hz2⟩ := hd1
          subst hz1
          subst hz2
          simp [muF, nuSlot]
  | sub a b =>
      simp only [fromSlot] at h
      injection h with h
      subst h
      simp [muF, nuSlot]

/-- A flat fraction has no fraction nodes. -/
theorem flatPos_mu {f : Frac} (h : flatPos f) : muF f = 0 := by
  obtain ⟨a, b, rfl, _⟩ := h
  rfl

/-- Cross-cancellation does not change the fraction-node count. -/
theorem crossCancel_nu (s t : Slot) :
    nuSlot (crossCancel s t).1 + nuSlot (crossCancel s t).2 =
      nuSlot s + nuSlot t := by
  cases s with
  | num x =>
      cases t with
      | num y => rfl
      | sub a b => rfl
  | sub a b =>
      cases t with
      | num y => rfl
      | sub c d => rfl

/-- The slot returned by `combineSlots` has at most as many fraction nodes
as its two inputs combined, and at most one. -/
theorem combineSlots_nu {m : ℕ} {s1 s2 : Slot} {pos : Bool} {out : Slot}
    (h : combineSlots (m + 1) s1 s2 pos = .ok out) :
    nuSlot out ≤ 1 ∧ nuSlot out ≤ nuSlot s1 + nuSlot s2 := by
  simp only [combineSlots] at h
  rcases s1 with xv | ⟨s1a, s1b⟩ <;> rcases s2 with yv | ⟨s2a, s2b⟩
  case num.num =>
    rw [emap_ok] at h
    obtain ⟨z, _, hz⟩ := h
    subst hz
    simp [nuSlot]
  all_goals (
    rw [ebind_ok] at h
    obtain ⟨fa, hfa, h⟩ := h
    rw [ebind_ok] at h
    obtain ⟨fb, hfb, h⟩ := h
    rw [ebind_ok] at h
    obtain ⟨⟨rr, oo⟩, hmd, h⟩ := h
    injection h with h
    subst h
    obtain ⟨a2, b2, heq, _⟩ := ((engineFlat m).2.2.1 _ _ _ _ hmd).1
    rw [heq]
    simp only [nuSlot]
    omega)


/-- Fraction-node count of `Frac.#from` of a slot, counted one below the
slot's own count (in truncated subtraction). -/
theorem fromSlot_mu1 {s : Slot} {g : Frac} (h : fromSlot s = .ok g) :
    muF g ≤ nuSlot s - 1 := by
  cases s with
  | num v =>
      have := fromSlot_mu h
      simpa [nuSlot] using this
  | sub a b =>
      simp only [fromSlot] at h
      injection h with h
      subst h
      simp [muF, nuSlot]

/-- Swapping the slots preserves the fraction-node count. -/
theorem invF_mu (f : Frac) : muF (invF f) = muF f := by
  simp [muF, invF]
  omega

/-- The engine terminates: with fuel beyond an explicit linear bound in the
number of fraction nodes, no computation reports fuel exhaustion (it
returns a result or throws a genuine error). -/
theorem engineTerm : ∀ k : ℕ,
    (∀ f fuel, muF f ≤ k → 6 * k + 21 ≤ fuel →
       reduceF fuel f ≠ .error .fuel) ∧
    (∀ s1 s2 pos fuel, nuSlot s1 + nuSlot s2 ≤ k → 6 * k + 22 ≤ fuel →
       combineSlots fuel s1 s2 pos ≠ .error .fuel) ∧
    (∀ a b fuel, muF a + muF b ≤ k → 6 * k + 23 ≤ fuel →
       mulF fuel a b ≠ .error .fuel) ∧
    (∀ a b fuel, muF a + muF b ≤ k → 6 * k + 24 ≤ fuel →
       mulDD fuel a b ≠ .error .fuel) ∧
    (∀ a b fuel, muF a + muF b ≤ k → 6 * k + 25 ≤ fuel →
       divDD fuel a b ≠ .error .fuel) := by
  intro k
  induction k using Nat.strong_induction_on with
  | _ k ih =>
  have hR : ∀ f fuel, muF f ≤ k → 6 * k + 21 ≤ fuel →
      reduceF fuel f ≠ .error .fuel := by
    rintro ⟨fn, fd⟩ fuel hmu hfuel
    obtain ⟨m, rfl⟩ : ∃ m, fuel = m + 1 := ⟨fuel - 1, by omega⟩
    rcases fn with nv | ⟨na, nb⟩ <;> rcases fd with dv | ⟨da, db⟩
    case num.num =>
      simp only [reduceF]
      exact ebind_ne_fuel (validateNumber_ne_fuel _ _)
        (fun n1 _ => ebind_ne_fuel (validateNumber_ne_fuel _ _)
          (fun d1 _ => by simp))
    all_goals (
      simp only [reduceF]
      refine ebind_ne_fuel (fromSlot_ne_fuel _) (fun a ha => ?_)
      refine ebind_ne_fuel (fromSlot_ne_fuel _) (fun b hb => ?_)
      refine ebind_ne_fuel ?_ (fun rr hrr => by simp)
      have hma := fromSlot_mu1 ha
      have hmb := fromSlot_mu1 hb
      simp only [muF, nuSlot] at hmu
      simp only [nuSlot] at hma hmb
      exact (ih (k - 1) (by omega)).2.2.2.2 a b m (by omega) (by omega))
  have hC : ∀ s1 s2 pos fuel, nuSlot s1 + nuSlot s2 ≤ k → 6 * k + 22 ≤ fuel →
      combineSlots fuel s1 s2 pos ≠ .error .fuel := by
    intro s1 s2 pos fuel hnu hfuel
    obtain ⟨m, rfl⟩ : ∃ m, fuel = m + 1 := ⟨fuel - 1, by omega⟩
    simp only [combineSlots]
    rcases s1 with xv | ⟨s1a, s1b⟩ <;> rcases s2 with yv | ⟨s2a, s2b⟩
    case num.num =>
      cases hv : validateNumber (toJsNum (jsMulO xv yv)) pos with
      | error e =>
          have hne := validateNumber_ne_fuel (toJsNum (jsMulO xv yv)) pos
          rw [hv] at hne
          simp only [Except.map, hv]
          intro hc
          injection hc with hc
          exact hne (by rw [hc])
      | ok z => simp [Except.map, hv]
    all_goals (
      refine ebind_ne_fuel (fromSlot_ne_fuel _) (fun fa hfa => ?_)
      refine ebind_ne_fuel (fromSlot_ne_fuel _) (fun fb hfb => ?_)
      refine ebind_ne_fuel ?_ (fun rr hrr => by simp)
      have hma := fromSlot_mu1 hfa
      have hmb := fromSlot_mu1 hfb
      simp only [nuSlot] at hnu hma hmb
      exact (ih (k - 1) (by omega)).2.2.2.1 fa fb m (by omega) (by omega))
  have hF : ∀ a b fuel, muF a + muF b ≤ k → 6 * k + 23 ≤ fuel →
      mulF fuel a b ≠ .error .fuel := by
    rintro ⟨an, ad⟩ ⟨bn, bd⟩ fuel hmu hfuel
    obtain ⟨m, rfl⟩ : ∃ m, fuel = m + 1 := ⟨fuel - 1, by omega⟩
    have h1 := crossCancel_nu an bd
    have h2 := crossCancel_nu ad bn
    simp only [muF] at hmu
    simp only [mulF]
    refine ebind_ne_fuel ?_ (fun newN hN => ?_)
    · exact hC _ _ _ _ (by omega) (by omega)
    refine ebind_ne_fuel ?_ (fun newD hD => ?_)
    · exact hC _ _ _ _ (by omega) (by omega)
    obtain ⟨m2, rfl⟩ : ∃ m2, m = m2 + 1 := by
      cases m with
      | zero => simp [combineSlots] at hN
      | succ m2 => exact ⟨m2, rfl⟩
    have hnN := combineSlots_nu hN
    have hnD := combineSlots_nu hD
    exact hR ⟨newN, newD⟩ (m2 + 1) (by simp only [muF]; omega) (by omega)
  have hM : ∀ a b fuel, muF a + muF b ≤ k → 6 * k + 24 ≤ fuel →
      mulDD fuel a b ≠ .error .fuel := by
    intro a b fuel hmu hfuel
    obtain ⟨m, rfl⟩ : ∃ m, fuel = m + 1 := ⟨fuel - 1, by omega⟩
    simp only [mulDD]
    refine ebind_ne_fuel (hR b m (by omega) (by omega)) (fun br hbr => ?_)
    refine ebind_ne_fuel ?_ (fun rr _ => by simp)
    have hbrflat := flatPos_mu ((engineFlat m).1 _ _ hbr)
    exact hF a br m (by omega) (by omega)
  have hD : ∀ a b fuel, muF a + muF b ≤ k → 6 * k + 25 ≤ fuel →
      divDD fuel a b ≠ .error .fuel := by
    intro a b fuel hmu hfuel
    obtain ⟨m, rfl⟩ : ∃ m, fuel = m + 1 := ⟨fuel - 1, by omega⟩
    simp only [divDD]
    have hminv := invF_mu b
    refine ebind_ne_fuel (hM a (invF b) m (by omega) (by omega))
      (fun p hp => ?_)
    obtain ⟨rr, b2⟩ := p
    refine ebind_ne_fuel ?_ (fun b3 _ => by simp)
    have hb2 := flatPos_mu ((engineFlat m).2.2.1 _ _ _ _ hp).2
    have hb2i := invF_mu b2
    exact hR (invF b2) m (by omega) (by omega)
  exact ⟨hR, hC, hF, hM, hD⟩


/-- A deep copy of a slot never runs out of fuel. -/
theorem copySlot_ne_fuel : ∀ (s : Slot) (b : Bool),
    copySlot b s ≠ .error .fuel := by
  intro s
  induction s with
  | num v =>
      intro b
      simp only [copySlot]
      cases hv : validateNumber (toJsNum v) b with
      | error e =>
          have hne := validateNumber_ne_fuel (toJsNum v) b
          rw [hv] at hne
          simp only [Except.map, hv]
          intro hc
          injection hc with hc
          exact hne (by rw [hc])
      | ok z => simp [Except.map, hv]
  | sub a b iha ihb =>
      intro pos
      simp only [copySlot]
      exact ebind_ne_fuel (iha true)
        (fun _ _ => ebind_ne_fuel (ihb false) (fun _ _ => by simp))

/-- A successful deep copy of a slot is the identity. -/
theorem copySlot_id_ok : ∀ {s : Slot} {b : Bool} {s2 : Slot},
    copySlot b s = .ok s2 → s2 = s := by
  intro s
  induction s with
  | num v =>
      intro b s2 h
      simp only [copySlot] at h
      rw [emap_ok] at h
      obtain ⟨z, hz, h⟩ := h
      subst h
      cases v with
      | none => simp [toJsNum, validateNumber] at hz
      | some w =>
          simp only [toJsNum] at hz
          rw [validateNumber_int_ok hz]
  | sub a b iha ihb =>
      intro pos s2 h
      simp only [copySlot] at h
      rw [ebind_ok] at h
      obtain ⟨a2, ha2, h⟩ := h
      rw [ebind_ok] at h
      obtain ⟨b2, hb2, h⟩ := h
      injection h with h
      subst h
      rw [iha ha2, ihb hb2]

/-- A successful deep copy of a fraction is the identity. -/
theorem copyFrac_id_ok {f g : Frac} (h : copyFrac f = .ok g) : g = f := by
  simp only [copyFrac] at h
  rw [ebind_ok] at h
  obtain ⟨n2, hn2, h⟩ := h
  rw [ebind_ok] at h
  obtain ⟨d2, hd2, h⟩ := h
  injection h with h
  subst h
  rw [copySlot_id_ok hn2, copySlot_id_ok hd2]

/-- The copying constructor call of every non-destructive operation either
throws a validation error or returns the receiver unchanged. -/
theorem ctor_frc (x : Frac) :
    ctor (.frc x) .undef ≠ .error .fuel ∧
    ∀ g, ctor (.frc x) .undef = .ok g → g = x := by
  constructor
  · simp only [ctor, validateArgsN]
    refine ebind_ne_fuel ?_ (fun nv hnv => ?_)
    · cases hc : copyFrac x with
      | error e =>
          have hne : copyFrac x ≠ .error .fuel := by
            simp only [copyFrac]
            exact ebind_ne_fuel (copySlot_ne_fuel _ _)
              (fun _ _ => ebind_ne_fuel (copySlot_ne_fuel _ _)
                (fun _ _ => by simp))
          rw [hc] at hne
          simp only [Except.map, hc]
          intro hcon
          injection hcon with hcon
          exact hne (by rw [hcon])
      | ok g => simp [Except.map, hc]
    · refine ebind_ne_fuel (by simp [validateArgsD]) (fun dv hdv => ?_)
      simp only [validateArgsD] at hdv
      injection hdv with hdv
      subst hdv
      cases nv with
      | none => simp
      | some nn =>
          cases nn with
          | inl z => simp
          | inr g => simp
  · intro g h
    simp only [ctor, validateArgsN, validateArgsD] at h
    cases hc : copyFrac x with
    | error e =>
        rw [hc] at h
        simp [Except.map, Bind.bind, Except.bind] at h
    | ok g2 =>
        rw [hc] at h
        simp only [Except.map, Bind.bind, Except.bind] at h
        injection h with h
        rw [← h, copyFrac_id_ok hc]

/-- C9 (amended): canonicalization always terminates — with enough fuel the
model never reports fuel exhaustion for any fraction, of arbitrary nesting
depth — and a successful `reduce` collapses its input to flat canonical
form; `((1/2)/(1/2)).reduce()` is `(1, 1)`.  But termination can be by a
thrown error rather than a canonical result (see the counterexample), so
the claim that every constructible value is collapsed is false as stated. -/
theorem claim_C9 :
    (∀ x : Frac, ∃ fuel : ℕ, reduceApi fuel x ≠ .error .fuel) ∧
    (∀ (fuel : ℕ) (x r : Frac), reduceApi fuel x = .ok r → canonicalF r) ∧
    reduceApi 30 ⟨.sub (.num (some 1)) (.num (some 2)),
                  .sub (.num (some 1)) (.num (some 2))⟩ =
      .ok ⟨.num (some 1), .num (some 1)⟩ := by
  refine ⟨?_, ?_, rfl⟩
  · intro x
    refine ⟨6 * muF x + 21, ?_⟩
    simp only [reduceApi]
    refine ebind_ne_fuel (ctor_frc x).1 (fun xc hxc => ?_)
    rw [(ctor_frc x).2 xc hxc]
    exact (engineTerm (muF x)).1 x _ le_rfl le_rfl
  · intro fuel x r h
    simp only [reduceApi] at h
    rw [ebind_ok] at h
    obtain ⟨xc, hxc, h⟩ := h
    exact ((engineVal fuel).1 _ _ h).1

/-- Counterexample to C9 as stated: `new Frac(1, new Frac(0, 1))` is
constructible, but canonicalization does not collapse it — it terminates
with a division-by-zero error, because the denominator has value zero. -/
theorem claim_C9_cex :
    ctor (.num (.fin (QJ.ofInt 1))) (.frc ⟨.num (some 0), .num (some 1)⟩) =
      .ok ⟨.num (some 1), .sub (.num (some 0)) (.num (some 1))⟩ ∧
    reduceApi 30 ⟨.num (some 1), .sub (.num (some 0)) (.num (some 1))⟩ =
      .error .divByZero :=
  ⟨rfl, rfl⟩

/-- Witness for C9: termination on `1/2`, and canonicality of the concrete
reduction. -/
theorem claim_C9_witness :
    (∃ fuel : ℕ, reduceApi fuel ⟨.num (some 1), .num (some 2)⟩ ≠
      .error .fuel) ∧
    canonicalF ⟨.num (some 1), .num (some 1)⟩ :=
  ⟨claim_C9.1 ⟨.num (some 1), .num (some 2)⟩,
   claim_C9.2.1 30 ⟨.sub (.num (some 1)) (.num (some 2)),
     .sub (.num (some 1)) (.num (some 2))⟩
     ⟨.num (some 1), .num (some 1)⟩ claim_C9.2.2⟩



/-- C8: in-place mutation is modelled functionally, so the observable slots
of the receiver and of operand fractions — inputs of the pure embedding —
cannot change; the substantive content is (i) each non-destructive
operation is definitionally a deep copy of the receiver (and the
construction of a fresh operand) followed by the destructive engine on the
copies, discarding the mutated copies except for the returned result, and
(ii) the deep copy reproduces the observable numerator and denominator
exactly, so the operation sees precisely the receiver's state. -/
theorem claim_C8 :
    (∀ x : Frac, wfF x = true → ctor (.frc x) .undef = .ok x) ∧
    (∀ f g : Frac, copyFrac f = .ok g → g = f) ∧
    (∀ (fuel : ℕ) (x : Frac) (nArg : NumSrc) (dArg : DenSrc),
      addApi fuel x nArg dArg = (ctor (.frc x) .undef >>= fun xc =>
        ctor nArg dArg >>= fun o => addDD fuel xc o >>= fun ro =>
          .ok ro.1)) ∧
    (∀ (fuel : ℕ) (x : Frac) (nArg : NumSrc) (dArg : DenSrc),
      subApi fuel x nArg dArg = (ctor (.frc x) .undef >>= fun xc =>
        ctor nArg dArg >>= fun o => subDD fuel xc o >>= fun ro =>
          .ok ro.1)) ∧
    (∀ (fuel : ℕ) (x : Frac) (nArg : NumSrc) (dArg : DenSrc),
      mulApi fuel x nArg dArg = (ctor (.frc x) .undef >>= fun xc =>
        ctor nArg dArg >>= fun o => mulDD fuel xc o >>= fun ro =>
          .ok ro.1)) ∧
    (∀ (fuel : ℕ) (x : Frac) (nArg : NumSrc) (dArg : DenSrc),
      divApi fuel x nArg dArg = (ctor (.frc x) .undef >>= fun xc =>
        ctor nArg dArg >>= fun o => divDD fuel xc o >>= fun ro =>
          .ok ro.1)) ∧
    (∀ (fuel : ℕ) (x : Frac) (p : ℤ),
      powApi fuel x p = (ctor (.frc x) .undef >>= fun xc =>
        powF fuel xc p)) ∧
    (∀ (fuel : ℕ) (x : Frac),
      reduceApi fuel x = (ctor (.frc x) .undef >>= fun xc =>
        reduceF fuel xc)) ∧
    (∀ x : Frac,
      invApi x = (ctor (.frc x) .undef >>= fun xc => .ok (invF xc))) ∧
    (∀ (fuel : ℕ) (x : Frac),
      valueOfApi fuel x = (ctor (.frc x) .undef >>= fun xc =>
        reduceF fuel xc >>= fun r =>
          .ok (jsDivQ (slotNum r.n) (slotNum r.d)))) ∧
    (∀ (fuel : ℕ) (rel : Option QJ → Option QJ → Bool) (x : Frac)
        (nArg : NumSrc) (dArg : DenSrc),
      compareApi fuel rel x nArg dArg = (valueOfApi fuel x >>= fun l =>
        ctor nArg dArg >>= fun o => valueOfApi fuel o >>= fun r =>
          .ok (rel l r))) :=
  ⟨fun _ h => ctor_copy h, fun _ _ h => copyFrac_id_ok h,
   fun _ _ _ _ => rfl, fun _ _ _ _ => rfl, fun _ _ _ _ => rfl,
   fun _ _ _ _ => rfl, fun _ _ _ => rfl, fun _ _ => rfl, fun _ => rfl,
   fun _ _ => rfl, fun _ _ _ _ _ => rfl⟩

/-- Witness for C8 at the receiver `1/2`. -/
theorem claim_C8_witness :
    ctor (.frc ⟨.num (some 1), .num (some 2)⟩) .undef =
      .ok ⟨.num (some 1), .num (some 2)⟩ :=
  claim_C8.1 ⟨.num (some 1), .num (some 2)⟩ (by decide)


end MF
